import Mathlib

/-!
Verification of the study-buddy quiz-generation pipelines.

This file gives a shallow embedding, in Lean 4, of the three Python source
modules of the repository:

  * `src/chemistry_quiz_generation.py`  (namespace `Chem`)
  * `src/general_quiz_generation.py`    (namespace `GenQ`)
  * `backend/src/main.py`               (namespace `Backend`)

Python strings are modelled as `List Char`; Python dicts with string keys as
ordered association lists (Python dicts preserve insertion order); a Python
function that can raise an uncaught exception is modelled with `Option`
(`none` = the call raises).  Randomness (`random.choice`, `random.sample`,
`random.shuffle`) is modelled by an oracle passed as an argument; theorems
that need properties of the oracle (e.g. that a shuffle is a permutation)
state them as hypotheses.  Recursive scans that consume several characters
per step are written either with an explicit skip counter or with an exact
fuel argument so that every definition is structurally recursive and
evaluates inside the kernel.
-/

/-- Characters of a Lean string literal; used to write Python `str` values. -/
def str (s : String) : List Char := s.data

/-- Python whitespace (`\s` and `str.strip`/`str.split` whitespace) for the
ASCII texts this program processes. -/
def pyWS (c : Char) : Bool :=
  c == ' ' || c == '\t' || c == '\n' || c == '\r' || c == '\x0b' || c == '\x0c'

/-- Does the list start with the given pattern (plain list match)? -/
def startsW : List Char → List Char → Bool
  | [], _ => true
  | _ :: _, [] => false
  | p :: ps, c :: cs => p == c && startsW ps cs

/-- Python `needle in haystack` for strings: contiguous subsequence test. -/
def containsSeq (p : List Char) : List Char → Bool
  | [] => startsW p []
  | c :: cs => startsW p (c :: cs) || containsSeq p cs

/-- Python `sep in s` for a single character. -/
def containsChar (c : Char) (l : List Char) : Bool := l.any (fun x => x == c)

/-- Python `s.split(sep)` for a one-character separator: keeps empty pieces,
always returns at least one piece. -/
def splitOnChar (sep : Char) : List Char → List (List Char)
  | [] => [[]]
  | c :: rest =>
    if c == sep then [] :: splitOnChar sep rest
    else
      match splitOnChar sep rest with
      | h :: t => (c :: h) :: t
      | [] => [[c]]

/-- Python `s.strip()`: remove leading and trailing whitespace. -/
def strip (l : List Char) : List Char :=
  ((l.dropWhile pyWS).reverse.dropWhile pyWS).reverse

/-- Python `s.split()` (no argument): split on whitespace runs, dropping
empty pieces. -/
def pySplitWS (l : List Char) : List (List Char) :=
  (splitOnChar ' ' (l.map (fun c => if pyWS c then ' ' else c))).filter
    (fun w => decide (w ≠ []))

/-- Python `" ".join(ws)`. -/
def joinSpace : List (List Char) → List Char
  | [] => []
  | [w] => w
  | w :: ws => w ++ ' ' :: joinSpace ws

/-- Helper for `firstDedup`: drop elements already seen. -/
def firstDedupGo (seen : List (List Char)) : List (List Char) → List (List Char)
  | [] => []
  | x :: xs =>
    if x ∈ seen then firstDedupGo seen xs
    else x :: firstDedupGo (x :: seen) xs

/-- Keep the first occurrence of each element (insertion order of Python
dict keys / first-seen order). -/
def firstDedup (l : List (List Char)) : List (List Char) := firstDedupGo [] l

/-- Decimal digits of a natural number, as characters (Python `str(n)`). -/
def natToStr (n : Nat) : List Char := Nat.toDigits 10 n

/-- Python `str(i)` for an `int` that may be negative. -/
def intToStr (i : Int) : List Char :=
  if i < 0 then '-' :: natToStr i.natAbs else natToStr i.natAbs

/-- Value of a nonempty decimal digit string (Python `int(s)`). -/
def digitsToNat (ds : List Char) : Nat :=
  ds.foldl (fun n c => n * 10 + (c.toNat - '0'.toNat)) 0

/-- Ordered association list lookup (Python `d.get(k)`). -/
def assocGet (k : List Char) : List (List Char × Nat) → Option Nat
  | [] => none
  | (k2, v) :: rest => if k2 = k then some v else assocGet k rest

/-- Count stored for a key, defaulting to zero (Python `d.get(k, 0)`). -/
def assocVal (k : List Char) (m : List (List Char × Nat)) : Nat :=
  (assocGet k m).getD 0

/-- Python `d[k] = d.get(k, 0) + v` on an insertion-ordered dict: add to the
entry in place when the key exists, else append the new pair. -/
def assocAdd (m : List (List Char × Nat)) (k : List Char) (v : Nat) :
    List (List Char × Nat) :=
  if (assocGet k m).isSome then
    m.map (fun p => (p.1, if p.1 = k then p.2 + v else p.2))
  else m ++ [(k, v)]

/-- A question's `answer` value: a string, or a bool for true/false items. -/
inductive Ans where
  | s : List Char → Ans
  | b : Bool → Ans
deriving DecidableEq

/-- A question record (Python dict).  `options`, `context` and
`source_sentence` default to empty when the producing branch omits the key
(reading an absent key with `.get` yields the same falsy/empty behaviour);
`quality_score` is written by the general pipeline's scoring pass. -/
structure Q where
  question_type : List Char
  question : List Char
  answer : Ans
  options : List (List Char) := []
  difficulty : List Char := str "medium"
  context : List Char := []
  source_sentence : List Char := []
  quality_score : Int := 0
deriving DecidableEq

/-- The answer string of a question (empty for boolean answers). -/
def ansText : Ans → List Char
  | Ans.s s => s
  | Ans.b _ => []

/-- Number of occurrences of a string in a list of strings. -/
def occs (x : List Char) (l : List (List Char)) : Nat :=
  l.countP (fun y => decide (y = x))

/-- Oracle for `random.choice` / `random.sample` / `random.shuffle`.  The
`Nat` salt distinguishes distinct call sites and loop iterations; theorems
state the properties they need of the oracle (e.g. that a shuffle is a
permutation) as hypotheses. -/
structure Rng where
  pickF : Nat → List (List Char) → List Char
  sampleF : List (List Char) → Nat → List (List Char)
  shuffleF : List (List Char) → List (List Char)

/-- Stable insertion into a sorted list: the new element goes before the
first existing element it is `le`-related to. -/
def insStable (le : Q → Q → Bool) (x : Q) : List Q → List Q
  | [] => [x]
  | y :: ys => if le x y then x :: y :: ys else y :: insStable le x ys

/-- Stable insertion sort.  Python's `list.sort`/`sorted` are stable, and a
stable sort for a total preorder is unique, so this agrees with them for
the key-based orders used below. -/
def isortQ (le : Q → Q → Bool) : List Q → List Q
  | [] => []
  | x :: xs => insStable le x (isortQ le xs)

namespace Chem

/-!  `parse_formula` (chemistry_quiz_generation.py, lines 255-300).

The Python function scans the formula left to right; on `(` it finds the
matching close parenthesis by depth counting (an unmatched `(` consumes the
rest of the string and drops its final character, exactly as the slice
`substr[i+1:j-1]` does when `j` has run to `len(substr)`), reads trailing
digits as a multiplier, and recurses; on an uppercase letter it consumes an
optional lowercase letter and trailing digits and accumulates
`count * multiplier` into the element map.  -/

/-- Index (in the list of characters following `(`) of the parenthesis that
closes it, by depth counting; `none` when unmatched. -/
def parenScan (level : Nat) : List Char → Option Nat
  | [] => none
  | c :: cs =>
    let lv := if c == '(' then level + 1 else if c == ')' then level - 1 else level
    if lv = 0 then some 0 else (parenScan lv cs).map (· + 1)

/-- Substring inside the parentheses and the remainder after the close; the
unmatched case mirrors Python's `substr[i+1:j-1]` with `j = len(substr)`,
which drops the final character. -/
def parenParts (rest : List Char) : List Char × List Char :=
  match parenScan 1 rest with
  | some j => (rest.take j, rest.drop (j + 1))
  | none => (rest.dropLast, [])

/-- Optional lowercase second letter of an element symbol and the remainder. -/
def lowTail : List Char → List Char × List Char
  | [] => ([], [])
  | d :: r2 => if d.isLower then ([d], r2) else ([], d :: r2)

/-- Core of `parse_formula`.  The first argument is fuel; every call from
`parse_formula` supplies fuel at least the length of the scanned list, and
each recursive call strictly shrinks the list, so the fuel-exhausted branch
is never reached from the wrapper. -/
def parse_core : Nat → List Char → Nat → List (List Char × Nat) →
    List (List Char × Nat)
  | 0, _, _, acc => acc
  | _ + 1, [], _, acc => acc
  | fuel + 1, c :: cs, mult, acc =>
    if c == '(' then
      let inn := (parenParts cs).1
      let aft := (parenParts cs).2
      let digs := aft.takeWhile Char.isDigit
      let aft2 := aft.drop digs.length
      let innerMult := if digs.isEmpty then 1 else digitsToNat digs
      parse_core fuel aft2 mult (parse_core fuel inn (mult * innerMult) acc)
    else if c.isUpper then
      let low := (lowTail cs).1
      let rest1 := (lowTail cs).2
      let digs := rest1.takeWhile Char.isDigit
      let rest2 := rest1.drop digs.length
      let cnt := if digs.isEmpty then 1 else digitsToNat digs
      parse_core fuel rest2 mult (assocAdd acc (c :: low) (cnt * mult))
    else parse_core fuel cs mult acc

/-- Python `parse_formula`: element symbol → atom count, insertion ordered. -/
def parse_formula (f : List Char) : List (List Char × Nat) :=
  parse_core f.length f 1 []

/-- A group whose parentheses nest properly: the depth scan of `g` followed
by one closing parenthesis finds that closer exactly at the end of `g`. -/
def balancedGroup (g : List Char) : Bool :=
  Chem.parenScan 1 (g ++ [')']) == some g.length

/-- Count contributed for one element by a scan at multiplier one; used to
state how `parse_core` scales with its multiplier. -/
def coreVal (fuel : Nat) (cs : List Char) (e : List Char) : Nat :=
  assocVal e (parse_core fuel cs 1 [])

/-!  `classify_reaction_type` (chemistry_quiz_generation.py, lines 188-253).

The whole body is wrapped in `try/except Exception: return "unknown"`.  The
body computes `reactant_states`/`product_states` with the stub
`calc_oxidation_states`, which always returns an empty dict, and then
evaluates `any(abs(r - p) > 0 for r, p in zip(reactant_states,
product_states))`.  Python dicts do not support subtraction, so the first
zipped pair raises `TypeError`; the `except` catches it and the function
returns "unknown".  The model keeps the later acid/base, combustion and
displacement checks (they are unreachable dead code after the raise). -/

/-- One side of an equation, split on `+` with each part stripped. -/
def sideParts (side : List Char) : List (List Char) :=
  (splitOnChar '+' side).map strip

/-- regex search for `H[A-Z]` (the classifier's "acid shape"). -/
def acidShape : List Char → Bool
  | c1 :: c2 :: rest => (c1 == 'H' && c2.isUpper) || acidShape (c2 :: rest)
  | _ => false

/-- regex search for `OH[-]` (the classifier's "base shape"). -/
def baseShape (l : List Char) : Bool := containsSeq (str "OH-") l

/-- regex search for `[A-Z][a-z]?[A-Z]` (the classifier's "salt shape"). -/
def saltShape : List Char → Bool
  | c1 :: c2 :: c3 :: rest =>
    (c1.isUpper && ((c2.isLower && c3.isUpper) || c2.isUpper))
    || saltShape (c2 :: c3 :: rest)
  | [c1, c2] => c1.isUpper && c2.isUpper
  | _ => false

/-- Body of the `try` block of `classify_reaction_type`; `Except.error`
models an exception escaping to the `except` handler. -/
def classifyBody (equation : List Char) : Except Unit (List Char) :=
  match splitOnChar '→' equation with
  | [rs, ps] =>
    let reactants := sideParts rs
    let products := sideParts ps
    -- reactant_elements / product_elements (parsed, then unused)
    let _ := reactants.map parse_formula
    let _ := products.map parse_formula
    -- calc_oxidation_states is a stub returning an empty dict
    let reactantStates := reactants.map
      (fun _ => ([] : List (List Char × Nat)))
    let productStates := products.map
      (fun _ => ([] : List (List Char × Nat)))
    -- `any(abs(r - p) > 0 ...)`: dict - dict raises TypeError on the first
    -- pair, so the check raises whenever the zip is nonempty
    if (reactantStates.zip productStates).isEmpty then
      if reactants.any acidShape && reactants.any baseShape
          && products.any saltShape then
        Except.ok (str "acid_base")
      else if reactants.contains (str "O2")
          && products.all (fun p =>
            p = str "CO2" || p = str "H2O" || p = str "SO2" || p = str "NO2") then
        Except.ok (str "combustion")
      else
        -- `is_displacement` is a stub returning None, which is falsy
        Except.ok (str "unknown")
    else Except.error ()
  | _ => Except.ok (str "unknown")

/-- Python `classify_reaction_type`. -/
def classify_reaction_type (equation : List Char) : List Char :=
  match classifyBody equation with
  | Except.ok s => s
  | Except.error _ => str "unknown"

/-!  `balance_equation` (chemistry_quiz_generation.py, lines 302-365).

The Python function builds, for each element, a row of atom counts
(reactant compounds positive, product compounds negative), takes the first
sympy null-space vector of the matrix, truncates each rational entry with
`int(...)` (toward zero), computes `lcm(*[c.denominator for c in
solution])`, scales the truncated values, and prints coefficients greater
than one.  All of that is inside `try/except`, which returns the input
unchanged on any error.  sympy facts used by the model: `Matrix.rref`
returns the unique reduced row echelon form, so any correct rref agrees
with it; `nullspace` builds, for each non-pivot column `f`, the vector with
1 at `f`, 0 at the other free columns and `-rref[i][f]` at the `i`-th pivot
column, and `nullspace()[0]` is the vector for the smallest free column
(raising IndexError when there is none); `lcm(a, b, *rest)` hits the
Integer fast path, which returns `ilcm(a, b)` and ignores the remaining
positional arguments (they would be read as generator symbols). -/

/-- Exact rational number, stored unreduced with a positive denominator.
sympy computes with reduced rationals; every quantity this model reads off
(`int(...)` truncation, the reduced denominator) depends only on the value,
so unreduced arithmetic agrees with sympy.  (Lean's `Rat` operations do not
reduce inside the kernel, hence this small replacement.) -/
structure Frac where
  n : Int
  d : Nat

/-- Fraction with value zero. -/
def fZero : Frac := ⟨0, 1⟩

/-- Fraction with value one. -/
def fOne : Frac := ⟨1, 1⟩

/-- Embedding of an integer. -/
def fOfInt (k : Int) : Frac := ⟨k, 1⟩

/-- Fraction subtraction. -/
def fSub (a b : Frac) : Frac := ⟨a.n * (b.d : Int) - b.n * (a.d : Int), a.d * b.d⟩

/-- Fraction multiplication. -/
def fMul (a b : Frac) : Frac := ⟨a.n * b.n, a.d * b.d⟩

/-- Fraction negation. -/
def fNeg (a : Frac) : Frac := ⟨-a.n, a.d⟩

/-- Fraction reciprocal (only ever applied to nonzero pivots). -/
def fInv (a : Frac) : Frac :=
  if a.n < 0 then ⟨-(a.d : Int), a.n.natAbs⟩ else ⟨(a.d : Int), a.n.natAbs⟩

/-- Is the value nonzero? -/
def fNZ (a : Frac) : Bool := decide (a.n ≠ 0)

/-- Reduced denominator of the value (sympy `Rational.denominator`). -/
def fDen (a : Frac) : Nat := a.d / Nat.gcd a.n.natAbs a.d

/-- Python `int(q)` on a rational: truncation toward zero. -/
def pyInt (q : Frac) : Int := q.n.tdiv (q.d : Int)

/-- Entry `j` of a row, defaulting to zero. -/
def rowGet (row : List Frac) (j : Nat) : Frac := row.getD j fZero

/-- Scan rows for a nonzero entry in column `col`, carrying the absolute
row index. -/
def findNZgo (col : Nat) (i : Nat) : List (List Frac) → Option Nat
  | [] => none
  | row :: rest =>
    if fNZ (rowGet row col) then some i else findNZgo col (i + 1) rest

/-- Index of the first row at or after `start` with a nonzero entry in
column `col`. -/
def findNZ (col : Nat) (start : Nat) (rows : List (List Frac)) : Option Nat :=
  findNZgo col start (rows.drop start)

/-- Swap two rows of the matrix. -/
def swapRows (rows : List (List Frac)) (i j : Nat) : List (List Frac) :=
  (rows.set i (rows.getD j [])).set j (rows.getD i [])

/-- Multiply every entry of a row by a scalar. -/
def scaleRow (row : List Frac) (c : Frac) : List Frac :=
  row.map (fun x => fMul x c)

/-- Subtract, from every row except the pivot row, the multiple of the pivot
row that clears column `col`. -/
def elimAt (pivRow : List Frac) (col : Nat) (pr : Nat) :
    Nat → List (List Frac) → List (List Frac)
  | _, [] => []
  | i, row :: rest =>
    (if i = pr then row
     else (row.zipWith fSub (scaleRow pivRow (rowGet row col))))
    :: elimAt pivRow col pr (i + 1) rest

/-- Gauss-Jordan elimination over ℚ; returns the reduced row echelon form
and the list of pivot columns in ascending order.  The fuel is the column
count, so the scan visits each column once.  The reduced row echelon form
is unique, so this agrees with sympy's `Matrix.rref`. -/
def rrefGo : Nat → Nat → Nat → List (List Frac) → List (List Frac) × List Nat
  | 0, _, _, rows => (rows, [])
  | fuel + 1, col, pr, rows =>
    match findNZ col pr rows with
    | none => rrefGo fuel (col + 1) pr rows
    | some r =>
      let rows1 := swapRows rows pr r
      let piv := rowGet (rows1.getD pr []) col
      let rows2 := rows1.set pr (scaleRow (rows1.getD pr []) (fInv piv))
      let rows3 := elimAt (rows2.getD pr []) col pr 0 rows2
      let rec0 := rrefGo fuel (col + 1) (pr + 1) rows3
      (rec0.1, col :: rec0.2)

/-- Reduced row echelon form of a matrix with `ncols` columns. -/
def rref (rows : List (List Frac)) (ncols : Nat) :
    List (List Frac) × List Nat :=
  rrefGo ncols 0 0 rows

/-- Position of a value in a list of column indices. -/
def idxOf (v : Nat) : List Nat → Option Nat
  | [] => none
  | x :: xs => if x = v then some 0 else (idxOf v xs).map (· + 1)

/-- First null-space basis vector following sympy's construction; `none`
when the null space is trivial (`nullspace()[0]` raises IndexError). -/
def nullspaceFirst (m : List (List Frac)) (ps : List Nat) (ncols : Nat) :
    Option (List Frac) :=
  match (List.range ncols).filter (fun j => decide (j ∉ ps)) with
  | [] => none
  | f :: _ => some ((List.range ncols).map (fun j =>
      if j = f then fOne
      else
        match idxOf j ps with
        | some i => fNeg (rowGet (m.getD i []) f)
        | none => fZero))

/-- Lexicographic (code-point) order on strings, Python `s1 < s2`. -/
def strLt : List Char → List Char → Bool
  | [], [] => false
  | [], _ :: _ => true
  | _ :: _, [] => false
  | x :: xs, y :: ys =>
    if x.toNat < y.toNat then true else if x == y then strLt xs ys else false

/-- Insert into a `strLt`-sorted list. -/
def insSorted (x : List Char) : List (List Char) → List (List Char)
  | [] => [x]
  | y :: ys => if strLt x y then x :: y :: ys else y :: insSorted x ys

/-- Python `sorted` on a list of strings. -/
def sortStrs : List (List Char) → List (List Char)
  | [] => []
  | x :: xs => insSorted x (sortStrs xs)

/-- Intercalate Python's `" + "`. -/
def joinPlus : List (List Char) → List Char
  | [] => []
  | [x] => x
  | x :: xs => x ++ str " + " ++ joinPlus xs

/-- Emit one side of the balanced equation: coefficients greater than one
are printed before the compound, others are omitted. -/
def renderCoeffSide (pairs : List (List Char × Int)) : List (List Char) :=
  pairs.map (fun ck => if 1 < ck.2 then intToStr ck.2 ++ ' ' :: ck.1 else ck.1)

/-- Balanced equation text from integer coefficients (reactants use the
signed value, products its absolute value, as in the source). -/
def renderBalanced (coeffs : List Int) (reactants products : List (List Char)) :
    List Char :=
  joinPlus (renderCoeffSide (reactants.zip (coeffs.take reactants.length)))
  ++ str " → "
  ++ joinPlus (renderCoeffSide (products.zip
      ((coeffs.drop reactants.length).map (fun k => (k.natAbs : Int)))))

/-- Successful path of `balance_equation`: integer coefficients plus the
compound lists; `none` models any exception reaching the `except` handler. -/
def balanceCore (equation : List Char) :
    Option (List Int × List (List Char) × List (List Char)) :=
  match splitOnChar '→' equation with
  | [rs, ps] =>
    let reactants := sideParts rs
    let products := sideParts ps
    let allElems := sortStrs (firstDedup
      (((reactants ++ products).map
        (fun c => (parse_formula c).map Prod.fst)).flatten))
    let mat := allElems.map (fun e =>
      reactants.map (fun c => fOfInt (assocVal e (parse_formula c) : Int))
      ++ products.map (fun c => fNeg (fOfInt (assocVal e (parse_formula c) : Int))))
    let ncols := reactants.length + products.length
    let rr := rref mat ncols
    match nullspaceFirst rr.1 rr.2 ncols with
    | none => none
    | some sol =>
      let coeffs0 : List Int := sol.map pyInt
      match sol.map fDen with
      | d1 :: d2 :: _ =>
        -- sympy `lcm(*dens)`: Integer fast path, only the first two count
        let l := Nat.lcm d1 d2
        some (coeffs0.map (fun c => c * (l : Int)), reactants, products)
      | _ => none  -- sympy lcm with fewer than two arguments raises
  | _ => none  -- tuple unpacking of the split raises ValueError

/-- Python `balance_equation`: render the solved coefficients, or return the
input unchanged when anything in the `try` block raises. -/
def balance_equation (equation : List Char) : List Char :=
  match balanceCore equation with
  | some (coeffs, rs, ps) => renderBalanced coeffs rs ps
  | none => equation

/-!  `preprocess_text` (chemistry_quiz_generation.py, lines 96-117): five
`re.sub` passes in order — arrow normalisation, spacing around formula
units, whitespace collapsing, and two OCR fixes.  Each pass is a left-to-
right scan replacing the leftmost match and continuing after it, which the
definitions below mirror; a skip counter makes several-character
consumption structurally recursive. -/

/-- Pass 1, `re.sub(r'(-+>|yields|gives)', '→', text)`.  The `-+>` branch
matches at a position exactly when the maximal dash run there is followed
by `>` (the backtracked shorter runs end on another dash). -/
def normA : Nat → List Char → List Char
  | _ + 1, [] => []
  | k + 1, _ :: cs => normA k cs
  | 0, [] => []
  | 0, c :: cs =>
    if c == '-' then
      let ds := cs.takeWhile (fun x => x == '-')
      match cs.drop ds.length with
      | '>' :: _ => '→' :: normA (ds.length + 1) cs
      | _ => '-' :: normA 0 cs
    else if startsW (str "yields") (c :: cs) then '→' :: normA 5 cs
    else if startsW (str "gives") (c :: cs) then '→' :: normA 4 cs
    else c :: normA 0 cs

/-- Arrow-normalisation pass. -/
def normArrows (cs : List Char) : List Char := normA 0 cs

/-- The formula-unit shape `[A-Z][a-z]?\d*` at the head of the text:
greedily one uppercase letter, an optional lowercase letter, digits. -/
def unitAt : List Char → Option (List Char)
  | [] => none
  | c :: rest =>
    if c.isUpper then
      let low := (lowTail rest).1
      let rest1 := (lowTail rest).2
      let digs := rest1.takeWhile Char.isDigit
      some (c :: low ++ digs)
    else none

/-- Shape of the tail of a formula unit: an optional lowercase letter
followed by digits. -/
def unitTail : List Char → Bool
  | [] => true
  | d :: ds => (d.isLower && ds.all Char.isDigit) || (d :: ds).all Char.isDigit

/-- Does the string match `[A-Z][a-z]?\d*` exactly (a single element
unit)? -/
def unitShape : List Char → Bool
  | [] => false
  | c :: rest => c.isUpper && unitTail rest

/-- Pass 2, `re.sub(r'([A-Z][a-z]?\d*)', r' \1 ', text)`: wrap every unit
in spaces. -/
def spaceA : Nat → List Char → List Char
  | _ + 1, [] => []
  | k + 1, _ :: cs => spaceA k cs
  | 0, [] => []
  | 0, c :: cs =>
    match unitAt (c :: cs) with
    | some u => ' ' :: (u ++ (' ' :: spaceA (u.length - 1) cs))
    | none => c :: spaceA 0 cs

/-- Unit-spacing pass. -/
def spaceUnits (cs : List Char) : List Char := spaceA 0 cs

/-- Pass 3, `re.sub(r'\s+', ' ', text)`: collapse whitespace runs. -/
def collapseA : Nat → List Char → List Char
  | _ + 1, [] => []
  | k + 1, _ :: cs => collapseA k cs
  | 0, [] => []
  | 0, c :: cs =>
    if pyWS c then ' ' :: collapseA (cs.takeWhile pyWS).length cs
    else c :: collapseA 0 cs

/-- Whitespace-collapsing pass. -/
def collapseWS (cs : List Char) : List Char := collapseA 0 cs

/-- Pass 4, `re.sub(r'l(\d)', r'1\1', text)`: lowercase `l` before a digit
becomes `1` (the digit is kept and the scan continues after it). -/
def ocrL : List Char → List Char
  | [] => []
  | [c] => [c]
  | c :: d :: rest =>
    if c == 'l' && d.isDigit then '1' :: d :: ocrL rest
    else c :: ocrL (d :: rest)

/-- Pass 5, `re.sub(r'O(\d)', r'0\1', text)`: capital `O` before a digit
becomes `0`. -/
def ocrO : List Char → List Char
  | [] => []
  | [c] => [c]
  | c :: d :: rest =>
    if c == 'O' && d.isDigit then '0' :: d :: ocrO rest
    else c :: ocrO (d :: rest)

/-- Python `preprocess_text`: the five passes in source order. -/
def preprocess_text (text : List Char) : List Char :=
  ocrO (ocrL (collapseWS (spaceUnits (normArrows text))))

/-!  `extract_chemical_content` (chemistry_quiz_generation.py, lines
119-186). -/

/-- One greedy match of `([A-Z][a-z]?\d*)+` at the head of the text:
returns the capture of the last repetition (what `re.findall` reports for
a repeated group) and the total number of characters matched.  The fuel is
the text length; every repetition consumes at least one character. -/
def unitsRunF : Nat → List Char → Option (List Char × Nat)
  | 0, _ => none
  | fuel + 1, cs =>
    match unitAt cs with
    | none => none
    | some u =>
      match unitsRunF fuel (cs.drop u.length) with
      | some p => some (p.1, u.length + p.2)
      | none => some (u, u.length)

/-- All `re.findall(r'([A-Z][a-z]?\d*)+', text)` captures, in match order. -/
def findFormulasA : Nat → List Char → List (List Char)
  | _ + 1, [] => []
  | k + 1, _ :: cs => findFormulasA k cs
  | 0, [] => []
  | 0, c :: cs =>
    match unitsRunF (c :: cs).length (c :: cs) with
    | some p => p.1 :: findFormulasA (p.2 - 1) cs
    | none => findFormulasA 0 cs

/-- Formula-pattern `findall` wrapper. -/
def findFormulas (cs : List Char) : List (List Char) := findFormulasA 0 cs

/-- Tokens of the concept regexes: a case-insensitive literal, `\s+`,
`[\s-]`, and `([A-Za-z]+)`. -/
inductive RTok where
  | lit : List Char → RTok
  | ws1 : RTok
  | wsdash : RTok
  | alfa1 : RTok

/-- Case-insensitive prefix test (`re.IGNORECASE`). -/
def startsWCI : List Char → List Char → Bool
  | [], _ => true
  | _ :: _, [] => false
  | p :: ps, c :: cs => p.toLower == c.toLower && startsWCI ps cs

/-- Match a token sequence at the head of the text, returning the number of
characters consumed.  Greedy runs (`\s+`, `([A-Za-z]+)`) need no
backtracking in the concept patterns: each is followed by a literal whose
first character the run cannot absorb, or by nothing. -/
def matchToks : List RTok → List Char → Option Nat
  | [], _ => some 0
  | RTok.lit w :: ts, cs =>
    if startsWCI w cs then (matchToks ts (cs.drop w.length)).map (· + w.length)
    else none
  | RTok.ws1 :: ts, cs =>
    let run := cs.takeWhile pyWS
    if run.isEmpty then none
    else (matchToks ts (cs.drop run.length)).map (· + run.length)
  | RTok.wsdash :: ts, cs =>
    match cs with
    | c :: rest =>
      if pyWS c || c == '-' then (matchToks ts rest).map (· + 1) else none
    | [] => none
  | RTok.alfa1 :: ts, cs =>
    let run := cs.takeWhile Char.isAlpha
    if run.isEmpty then none
    else (matchToks ts (cs.drop run.length)).map (· + run.length)

/-- First alternative that matches (Python alternation order). -/
def matchAlts : List (List RTok) → List Char → Option Nat
  | [], _ => none
  | a :: rest, cs =>
    match matchToks a cs with
    | some k => some k
    | none => matchAlts rest cs

/-- All `re.finditer` matches of an alternation over the text, as matched
substrings (`match.group(0)`), left to right and non-overlapping. -/
def findPatA : List (List RTok) → Nat → List Char → List (List Char)
  | _, _ + 1, [] => []
  | alts, k + 1, _ :: cs => findPatA alts k cs
  | _, 0, [] => []
  | alts, 0, c :: cs =>
    match matchAlts alts (c :: cs) with
    | some k => (c :: cs).take k :: findPatA alts (k - 1) cs
    | none => findPatA alts 0 cs

/-- Concept-pattern matcher wrapper. -/
def findPat (alts : List (List RTok)) (cs : List Char) : List (List Char) :=
  findPatA alts 0 cs

/-- The `self.elements` dict: name → symbol, in insertion order. -/
def elementsTable : List (List Char × List Char) :=
  [(str "Hydrogen", str "H"), (str "Helium", str "He"),
   (str "Lithium", str "Li"), (str "Beryllium", str "Be"),
   (str "Boron", str "B"), (str "Carbon", str "C"),
   (str "Nitrogen", str "N"), (str "Oxygen", str "O"),
   (str "Fluorine", str "F"), (str "Neon", str "Ne"),
   (str "Sodium", str "Na"), (str "Magnesium", str "Mg"),
   (str "Aluminum", str "Al"), (str "Silicon", str "Si"),
   (str "Phosphorus", str "P"), (str "Sulfur", str "S"),
   (str "Chlorine", str "Cl"), (str "Argon", str "Ar"),
   (str "Potassium", str "K"), (str "Calcium", str "Ca")]

/-- Keys of `self.element_names` (symbol → name inverse dict). -/
def elementSymbols : List (List Char) := elementsTable.map Prod.snd

/-- Python `self.element_names.get(symbol, symbol)`. -/
def elementNameOf (sym : List Char) : List Char :=
  match elementsTable.find? (fun p => decide (p.2 = sym)) with
  | some p => p.1
  | none => sym

/-- The `self.compounds` dict after `self.compounds.update(self.pharm_compounds)`:
ten base compounds followed by the six pharmaceutical ones. -/
def compoundsTable : List (List Char × List Char) :=
  [(str "Water", str "H2O"), (str "Carbon Dioxide", str "CO2"),
   (str "Methane", str "CH4"), (str "Ammonia", str "NH3"),
   (str "Glucose", str "C6H12O6"), (str "Sodium Chloride", str "NaCl"),
   (str "Sulfuric Acid", str "H2SO4"), (str "Nitric Acid", str "HNO3"),
   (str "Hydrochloric Acid", str "HCl"), (str "Sodium Hydroxide", str "NaOH"),
   (str "Aspirin", str "C9H8O4"), (str "Paracetamol", str "C8H9NO2"),
   (str "Ibuprofen", str "C13H18O2"), (str "Caffeine", str "C8H10N4O2"),
   (str "Penicillin", str "C16H18N2O4S"), (str "Morphine", str "C17H19NO3")]

/-- `self.compound_names` is the inverse of `self.compounds` built on line
43, before the pharmaceutical update on line 94, so it only covers the ten
base compounds. -/
def compoundNamesTable : List (List Char × List Char) :=
  (compoundsTable.take 10).map (fun p => (p.2, p.1))

/-- Python `get_compound_name` (lines 829-834). -/
def get_compound_name (formula : List Char) : List Char :=
  match compoundNamesTable.find? (fun p => decide (p.1 = formula)) with
  | some p => p.2
  | none => str "the compound with the formula " ++ formula

/-- The `self.valencies` dict: symbol → valency (some are negative). -/
def valenciesTable : List (List Char × Int) :=
  [(str "H", 1), (str "Li", 1), (str "Na", 1), (str "K", 1),
   (str "O", 2), (str "S", 2), (str "Ca", 2), (str "Mg", 2),
   (str "N", 3), (str "P", 3), (str "Al", 3),
   (str "C", 4), (str "Si", 4),
   (str "Cl", -1), (str "F", -1), (str "Br", -1), (str "I", -1)]

/-- The fifteen `(regex, concept_type)` pairs of `concept_patterns`
(lines 163-179), with each alternation expanded in source order. -/
def conceptPatterns : List (List (List RTok) × List Char) :=
  [([[RTok.lit (str "valency"), RTok.ws1, RTok.lit (str "of"), RTok.ws1, RTok.alfa1],
     [RTok.lit (str "valence"), RTok.ws1, RTok.lit (str "of"), RTok.ws1, RTok.alfa1]],
    str "valency"),
   ([[RTok.lit (str "acid")], [RTok.lit (str "base")], [RTok.lit (str "pH")],
     [RTok.lit (str "pOH")], [RTok.lit (str "buffer")]], str "acid_base"),
   ([[RTok.lit (str "oxidation")], [RTok.lit (str "reduction")],
     [RTok.lit (str "redox")],
     [RTok.lit (str "electron"), RTok.ws1, RTok.lit (str "transfer")]],
    str "redox"),
   ([[RTok.lit (str "bond")], [RTok.lit (str "bonding")], [RTok.lit (str "ionic")],
     [RTok.lit (str "covalent")], [RTok.lit (str "metallic")]], str "bonding"),
   ([[RTok.lit (str "mole")], [RTok.lit (str "stoichiometry")],
     [RTok.lit (str "mass")]], str "stoichiometry"),
   ([[RTok.lit (str "equilibrium")],
     [RTok.lit (str "Le"), RTok.ws1, RTok.lit (str "Chatelier")]],
    str "equilibrium"),
   ([[RTok.lit (str "organic")], [RTok.lit (str "hydrocarbon")],
     [RTok.lit (str "alkane")], [RTok.lit (str "alkene")],
     [RTok.lit (str "alkyne")], [RTok.lit (str "aromatic")]], str "organic"),
   ([[RTok.lit (str "periodic"), RTok.ws1, RTok.lit (str "table")],
     [RTok.lit (str "group")], [RTok.lit (str "period")],
     [RTok.lit (str "block")]], str "periodic_table"),
   ([[RTok.lit (str "stereochemistry")], [RTok.lit (str "chirality")],
     [RTok.lit (str "enantiomer")], [RTok.lit (str "diastereomer")]],
    str "stereochemistry"),
   ([[RTok.lit (str "pharmacokinetics")], [RTok.lit (str "absorption")],
     [RTok.lit (str "distribution")], [RTok.lit (str "metabolism")],
     [RTok.lit (str "excretion")], [RTok.lit (str "ADME")]],
    str "pharmacokinetics"),
   ([[RTok.lit (str "drug"), RTok.wsdash, RTok.lit (str "target")],
     [RTok.lit (str "receptor")], [RTok.lit (str "binding")],
     [RTok.lit (str "antagonist")], [RTok.lit (str "agonist")]],
    str "drug_target"),
   ([[RTok.lit (str "spectroscopy")], [RTok.lit (str "NMR")],
     [RTok.lit (str "IR")], [RTok.lit (str "UV-Vis")],
     [RTok.lit (str "mass"), RTok.wsdash, RTok.lit (str "spec")]],
    str "analytical"),
   ([[RTok.lit (str "enzyme")], [RTok.lit (str "substrate")],
     [RTok.lit (str "inhibition")],
     [RTok.lit (str "active"), RTok.wsdash, RTok.lit (str "site")]],
    str "biochemistry"),
   ([[RTok.lit (str "drug"), RTok.wsdash, RTok.lit (str "delivery")],
     [RTok.lit (str "formulation")], [RTok.lit (str "bioavailability")],
     [RTok.lit (str "dosage")]], str "pharmaceutics"),
   ([[RTok.lit (str "structure-activity")], [RTok.lit (str "SAR")],
     [RTok.lit (str "lead"), RTok.wsdash, RTok.lit (str "compound")],
     [RTok.lit (str "drug"), RTok.wsdash, RTok.lit (str "design")]],
    str "medicinal_chemistry")]

/-- The dictionary returned by `extract_chemical_content`. -/
structure Content where
  formulas : List (List Char)
  equations : List (List Char)
  element_mentions : List (List Char × List Char)
  compound_mentions : List (List Char × List Char)
  concepts : List (List Char × List Char)

/-- Membership of a line in the equation regex
`.*→.*|.*->.*|.*yields.*|.*gives.*`. -/
def eqPatternHit (line : List Char) : Bool :=
  containsChar '→' line || containsSeq (str "->") line
  || containsSeq (str "yields") line || containsSeq (str "gives") line

/-- Python `extract_chemical_content`.  Python iterates a `set` of the
`findall` captures, whose order is unspecified; the model fixes
first-occurrence order, and no verified claim depends on that order. -/
def extract_chemical_content (text : List Char) : Content :=
  { formulas :=
      (firstDedup (findFormulas text)).filter
        (fun f => elementSymbols.any (fun s => containsSeq s f)),
    equations :=
      (splitOnChar '\n' text).filterMap (fun line =>
        if eqPatternHit line then some (collapseWS (strip line)) else none),
    element_mentions :=
      elementsTable.filter (fun p =>
        containsSeq p.1 text || containsSeq p.2 text),
    compound_mentions :=
      compoundsTable.filter (fun p =>
        containsSeq p.1 text || containsSeq p.2 text),
    concepts :=
      (conceptPatterns.map (fun pc =>
        (findPat pc.1 text).map (fun m => (m, pc.2)))).flatten }

/-!  Question synthesis (chemistry_quiz_generation.py, lines 367-534 and
558-793 and 858-912). -/

/-- A chemistry short-answer question dict. -/
def mkSA (q a diff : List Char) : Q :=
  { question_type := str "short_answer", question := q, answer := Ans.s a,
    difficulty := diff }

/-- A chemistry multiple-choice question dict. -/
def mkMC (q : List Char) (opts : List (List Char)) (a diff : List Char) : Q :=
  { question_type := str "multiple_choice", question := q, options := opts,
    answer := Ans.s a, difficulty := diff }

/-- A chemistry true/false question dict. -/
def mkTF (q : List Char) (a : Bool) (diff : List Char) : Q :=
  { question_type := str "true_false", question := q, answer := Ans.b a,
    difficulty := diff }

/-- The formula → name multiple-choice question of
`_generate_formula_questions` (lines 434-447): the correct name plus
`min(3, ...)` names sampled from `list(compounds.keys())` with this name
removed, shuffled. -/
def compoundMCQ (rng : Rng) (name formula : List Char) : Q :=
  mkMC (str "What is the name of the compound with the formula "
      ++ formula ++ str "?")
    (rng.shuffleF (name :: rng.sampleF
      ((compoundsTable.map Prod.fst).erase name)
      (min 3 ((compoundsTable.map Prod.fst).erase name).length)))
    name (str "easy")

/-- Compound name/formula questions of `_generate_formula_questions`
(lines 423-447): for each known compound detected, a short answer
(name → formula) and the multiple-choice companion. -/
def formulaNameQs (rng : Rng) (content : Content) : List Q :=
  (compoundsTable.map (fun nf =>
    if decide (nf.2 ∈ content.formulas) || decide (nf ∈ content.compound_mentions)
    then
      [mkSA (str "What is the chemical formula for " ++ nf.1 ++ str "?")
        nf.2 (str "easy"),
       compoundMCQ rng nf.1 nf.2]
    else [])).flatten

/-- Element-count questions of `_generate_formula_questions` (lines
449-464): for each detected formula that parses to at least two distinct
elements, ask for the atom count of a randomly chosen element. -/
def formulaCountQs (rng : Rng) (content : Content) : List Q :=
  content.formulas.filterMap (fun f =>
    let elems := parse_formula f
    if 2 ≤ elems.length then
      let e := rng.pickF 0 (elems.map Prod.fst)
      some (mkSA (str "How many atoms of " ++ elementNameOf e
          ++ str " are in one molecule of " ++ f ++ str "?")
        (natToStr (assocVal e elems)) (str "medium"))
    else none)

/-- Python `_generate_formula_questions`. -/
def generate_formula_questions (rng : Rng) (content : Content) : List Q :=
  formulaNameQs rng content ++ formulaCountQs rng content

/-- Python `s.replace('_', ' ')`. -/
def replUnderscore (l : List Char) : List Char :=
  l.map (fun c => if c == '_' then ' ' else c)

/-- Helper for `pyTitle`, carrying whether the previous character was
alphabetic. -/
def pyTitleGo : Bool → List Char → List Char
  | _, [] => []
  | prevAlpha, c :: cs =>
    (if c.isAlpha then (if prevAlpha then c.toLower else c.toUpper) else c)
    :: pyTitleGo c.isAlpha cs

/-- Python `s.title()`. -/
def pyTitle (l : List Char) : List Char := pyTitleGo false l

/-- regex `^\d+\s*[A-Z]` test of line 488: a leading digit run, optional
whitespace, then an uppercase letter. -/
def startsCoefUpper (l : List Char) : Bool :=
  match l with
  | [] => false
  | c :: _ =>
    if c.isDigit then
      let rest := l.drop (l.takeWhile Char.isDigit).length
      match rest.drop (rest.takeWhile pyWS).length with
      | d :: _ => d.isUpper
      | [] => false
    else false

/-- Python `_generate_equation_questions` (lines 468-518): per equation, a
reaction-type multiple choice (skipped for "unknown"), a balancing short
answer (only when the equation does not already start with a coefficient
and balancing changes it), and reactant/product identification questions. -/
def equationQs (content : Content) : List Q :=
  (content.equations.map (fun equation =>
    (let rt := classify_reaction_type equation
     if decide (rt ≠ str "unknown") then
       [mkMC (str "What type of reaction is represented by the equation: "
           ++ equation ++ str "?")
         [str "Synthesis", str "Decomposition", str "Single Displacement",
          str "Double Displacement", str "Combustion"]
         (pyTitle (replUnderscore rt)) (str "medium")]
     else [])
    ++ (if !(startsCoefUpper equation) then
         (let b := balance_equation equation
          if decide (b ≠ equation) then
            [mkSA (str "Balance the following chemical equation: " ++ equation)
              b (str "hard")]
          else [])
        else [])
    ++ (match splitOnChar '→' equation with
        | [rs, ps] =>
          [mkSA (str "In the equation " ++ equation
              ++ str ", what are the reactants?") (strip rs) (str "easy"),
           mkSA (str "In the equation " ++ equation
              ++ str ", what are the products?") (strip ps) (str "easy")]
        | _ => []))).flatten

/-- The `periodic_table_info` dict of `_generate_element_questions`:
symbol → (group, period, block). -/
def periodicTable : List (List Char × (Nat × Nat × List Char)) :=
  [(str "H", (1, 1, str "s")), (str "He", (18, 1, str "p")),
   (str "Li", (1, 2, str "s")), (str "C", (14, 2, str "p")),
   (str "N", (15, 2, str "p")), (str "O", (16, 2, str "p")),
   (str "Na", (1, 3, str "s")), (str "Cl", (17, 3, str "p"))]

/-- Python `_generate_element_questions` (lines 520-582). -/
def elementQs (content : Content) : List Q :=
  (content.element_mentions.map (fun nm =>
    [mkSA (str "What is the chemical symbol for " ++ nm.1 ++ str "?")
      nm.2 (str "easy")]
    ++ (match valenciesTable.find? (fun p => decide (p.1 = nm.2)) with
        | some p =>
          [mkSA (str "What is the valency of " ++ nm.1 ++ str "?")
            (intToStr p.2) (str "medium")]
        | none => [])
    ++ (match periodicTable.find? (fun p => decide (p.1 = nm.2)) with
        | some p =>
          let g := p.2.1
          let pd := p.2.2.1
          [mkMC (str "In which group of the periodic table is " ++ nm.1
              ++ str " located?")
            [natToStr g, natToStr ((g + 2) % 18 + 1),
             natToStr ((g + 5) % 18 + 1), natToStr ((g + 8) % 18 + 1)]
            (natToStr g) (str "medium"),
           mkMC (str "In which period of the periodic table is " ++ nm.1
              ++ str " located?")
            [natToStr pd, natToStr ((pd + 1) % 7 + 1),
             natToStr ((pd + 2) % 7 + 1), natToStr ((pd + 3) % 7 + 1)]
            (natToStr pd) (str "medium"),
           mkMC (str "To which block of the periodic table does " ++ nm.1
              ++ str " belong?")
            [str "s", str "p", str "d", str "f"]
            p.2.2.2 (str "hard")]
        | none => []))).flatten

/-- Python `_generate_concept_questions` (lines 584-642). -/
def conceptQs (content : Content) : List Q :=
  (content.concepts.map (fun tc =>
    if tc.2 = str "acid_base" then
      [mkTF (str "True or False: According to the Arrhenius definition, acids donate protons (H+) in aqueous solutions.")
        true (str "medium"),
       mkMC (str "Which of the following is an acid according to the Brønsted-Lowry definition?")
        [str "Proton donor", str "Proton acceptor", str "Electron donor",
         str "Electron acceptor"]
        (str "Proton donor") (str "medium")]
    else if tc.2 = str "redox" then
      [mkMC (str "In a redox reaction, what happens to the element being oxidized?")
        [str "It loses electrons", str "It gains electrons",
         str "Its oxidation number decreases",
         str "It becomes more electronegative"]
        (str "It loses electrons") (str "medium")]
    else if tc.2 = str "bonding" then
      [mkMC (str "Which type of bonding occurs between atoms with large differences in electronegativity?")
        [str "Ionic", str "Covalent", str "Metallic", str "Hydrogen"]
        (str "Ionic") (str "medium")]
    else if tc.2 = str "periodic_table" then
      [mkMC (str "As you move from left to right across a period in the periodic table, what generally happens to atomic radius?")
        [str "It decreases", str "It increases", str "It remains constant",
         str "It increases then decreases"]
        (str "It decreases") (str "hard")]
    else [])).flatten

/-- The `molecular_geometries` dict of `_generate_structure_questions`. -/
def geometriesTable : List (List Char × List Char) :=
  [(str "H2O", str "bent"), (str "NH3", str "trigonal pyramidal"),
   (str "CH4", str "tetrahedral"), (str "CO2", str "linear"),
   (str "BF3", str "trigonal planar"), (str "SF6", str "octahedral"),
   (str "PCl5", str "trigonal bipyramidal")]

/-- The `hybridization_info` dict of `_generate_structure_questions`. -/
def hybridTable : List (List Char × List Char) :=
  [(str "H2O", str "sp3"), (str "NH3", str "sp3"), (str "CH4", str "sp3"),
   (str "CO2", str "sp"), (str "BF3", str "sp2"), (str "C2H4", str "sp2")]

/-- Python `_generate_structure_questions` (lines 644-686). -/
def structureQs (content : Content) : List Q :=
  (content.formulas.map (fun f =>
    match geometriesTable.find? (fun p => decide (p.1 = f)) with
    | some p =>
      [mkMC (str "What is the molecular geometry of " ++ f ++ str "?")
        [str "linear", str "bent", str "trigonal planar", str "tetrahedral",
         str "trigonal pyramidal", str "octahedral"]
        p.2 (str "hard")]
      ++ (match hybridTable.find? (fun h => decide (h.1 = f)) with
          | some h =>
            [mkMC (str "What is the hybridization of the central atom in "
                ++ f ++ str "?")
              [str "sp", str "sp2", str "sp3", str "sp3d", str "sp3d2"]
              h.2 (str "hard")]
          | none => [])
    | none => [])).flatten

/-- The `iupac_names` dict of `_generate_nomenclature_questions`
(lines 693-752). -/
def iupacTable : List (List Char × List Char) :=
  [(str "CH4", str "methane"), (str "C2H6", str "ethane"),
   (str "C3H8", str "propane"), (str "C2H5OH", str "ethanol"),
   (str "CH3COOH", str "acetic acid"), (str "CH3CHO", str "acetaldehyde"),
   (str "CH3COCH3", str "acetone"), (str "CH3NH2", str "methylamine"),
   (str "C2H4", str "ethene"), (str "C3H6", str "propene"),
   (str "C4H10", str "butane"), (str "C5H12", str "pentane"),
   (str "C6H14", str "hexane"), (str "C7H16", str "heptane"),
   (str "C8H18", str "octane"), (str "C9H20", str "nonane"),
   (str "C10H22", str "decane"), (str "H2O", str "water"),
   (str "CO2", str "carbon dioxide"), (str "CO", str "carbon monoxide"),
   (str "O2", str "dioxygen"), (str "N2", str "dinitrogen"),
   (str "NH3", str "ammonia"), (str "H2O2", str "hydrogen peroxide"),
   (str "HCl", str "hydrogen chloride"), (str "NaCl", str "sodium chloride"),
   (str "KCl", str "potassium chloride"), (str "NaOH", str "sodium hydroxide"),
   (str "KOH", str "potassium hydroxide"), (str "H2SO4", str "sulfuric acid"),
   (str "HNO3", str "nitric acid"), (str "H3PO4", str "phosphoric acid"),
   (str "H2CO3", str "carbonic acid"),
   (str "NaHCO3", str "sodium bicarbonate"),
   (str "CaCO3", str "calcium carbonate"),
   (str "Na2CO3", str "sodium carbonate"),
   (str "MgSO4", str "magnesium sulfate"),
   (str "CaSO4", str "calcium sulfate"),
   (str "Fe2O3", str "iron(III) oxide"), (str "FeO", str "iron(II) oxide"),
   (str "Al2O3", str "aluminum oxide"), (str "SiO2", str "silicon dioxide"),
   (str "CH2Cl2", str "dichloromethane"), (str "CHCl3", str "chloroform"),
   (str "CCl4", str "carbon tetrachloride"), (str "C6H6", str "benzene"),
   (str "C6H5OH", str "phenol"), (str "C6H5NH2", str "aniline"),
   (str "C6H5CHO", str "benzaldehyde"), (str "C6H5COOH", str "benzoic acid"),
   (str "CH3OCH3", str "dimethyl ether"),
   (str "C2H5OCH3", str "methoxyethane"),
   (str "CH3CN", str "acetonitrile"), (str "C2H2", str "ethyne"),
   (str "C3H4", str "propyne"), (str "C2H5Cl", str "chloroethane"),
   (str "C3H7OH", str "propanol"), (str "C4H9OH", str "butanol")]

/-- The `salt_names` dict of `_generate_nomenclature_questions`. -/
def saltTable : List (List Char × List Char) :=
  [(str "NaCl", str "sodium chloride"), (str "KBr", str "potassium bromide"),
   (str "CaCO3", str "calcium carbonate"),
   (str "MgSO4", str "magnesium sulfate"),
   (str "NH4NO3", str "ammonium nitrate")]

/-- Python `_generate_nomenclature_questions` (lines 688-793). -/
def nomenclatureQs (content : Content) : List Q :=
  (content.formulas.map (fun f =>
    match iupacTable.find? (fun p => decide (p.1 = f)) with
    | some p =>
      [mkSA (str "What is the IUPAC name for the compound with formula "
          ++ f ++ str "?") p.2 (str "medium"),
       mkSA (str "Write the chemical formula for " ++ p.2 ++ str ".")
        f (str "medium")]
    | none => [])).flatten
  ++ content.formulas.filterMap (fun f =>
    match saltTable.find? (fun p => decide (p.1 = f)) with
    | some p =>
      some (mkSA (str "What is the name of the ionic compound " ++ f
          ++ str "?") p.2 (str "easy"))
    | none => none)

/-- Python `_generate_pharmacy_questions` (lines 858-912). -/
def pharmacyQs (content : Content) : List Q :=
  (content.concepts.map (fun tc =>
    if tc.2 = str "stereochemistry" then
      [mkMC (str "What is the significance of chirality in drug action?")
        [str "Different enantiomers can have different biological effects",
         str "Chiral drugs are always more potent",
         str "Stereochemistry has no effect on drug action",
         str "All drug molecules must be chiral"]
        (str "Different enantiomers can have different biological effects")
        (str "medium")]
    else if tc.2 = str "pharmacokinetics" then
      [mkSA (str "What does ADME stand for in pharmacokinetics?")
        (str "Absorption, Distribution, Metabolism, Excretion") (str "medium")]
    else if tc.2 = str "drug_target" then
      [mkSA (str "What is the difference between an agonist and an antagonist?")
        (str "An agonist activates a receptor while an antagonist blocks or reduces receptor activity")
        (str "medium")]
    else [])).flatten

/-- Difficulty rank used for sorting:
`difficulty_values.get(q.get('difficulty', 'medium'), 1)`. -/
def diffRank (q : Q) : Nat :=
  if q.difficulty = str "easy" then 0
  else if q.difficulty = str "medium" then 1
  else if q.difficulty = str "hard" then 2
  else 1

/-- The `questions_by_type` groups of `_ensure_diversity`, read off for one
type in defaultdict order. -/
def edGroup (questions : List Q) (t : List Char) : List Q :=
  questions.filter (fun q => decide (q.question_type = t))

/-- The first pass of `_ensure_diversity`: up to `per` questions of each
type, in type first-occurrence order. -/
def edFirstPass (questions : List Q) (per : Nat) (qtypes : List (List Char)) :
    List Q :=
  (qtypes.map (fun t => (edGroup questions t).take per)).flatten

/-- The `remaining_questions` of `_ensure_diversity`: questions whose text
is not already used, sorted by descending difficulty (Python's stable
`sort(..., reverse=True)`). -/
def edRest (questions : List Q) (used : List (List Char)) : List Q :=
  isortQ (fun a b => decide (diffRank b ≤ diffRank a))
    (questions.filter (fun q => decide (q.question ∉ used)))

/-- Python `_ensure_diversity` (lines 795-827).  Grouping uses the
defaultdict key order (first occurrence); `questions_per_type` divides by
the number of groups, which raises `ZeroDivisionError` when no question was
generated — modelled by `none`.  Remaining slots are filled with unused
questions sorted by descending difficulty, and the result is cut to
`num_questions`. -/
def ensure_diversity (questions : List Q) (num_questions : Nat) :
    Option (List Q) :=
  match firstDedup (questions.map Q.question_type) with
  | [] => none
  | t0 :: ts =>
    let per := max 1 (num_questions / (t0 :: ts).length)
    let firstPass := edFirstPass questions per (t0 :: ts)
    let diverse :=
      if firstPass.length < num_questions then
        firstPass ++ (edRest questions (firstPass.map Q.question)).take
          (num_questions - firstPass.length)
      else firstPass
    some (diverse.take num_questions)

/-- Python `generate_questions` (lines 367-417): concatenate all generator
outputs in source order, backfill with simple formula questions while fewer
than `min(5, num_questions)` exist and formulas were detected, sort by
ascending difficulty (stably), and apply the diversity selector. -/
def generate_questions (rng : Rng) (content : Content) (num_questions : Nat) :
    Option (List Q) :=
  let qs := generate_formula_questions rng content
    ++ equationQs content
    ++ elementQs content
    ++ conceptQs content
    ++ (if decide (content.formulas ≠ []) then structureQs content else [])
    ++ nomenclatureQs content
    ++ pharmacyQs content
  let qs2 :=
    if decide (content.formulas ≠ []) then
      qs ++ (List.range (min 5 num_questions - qs.length)).map (fun i =>
        let f := rng.pickF (1000 + i) content.formulas
        mkSA (str "Write the chemical formula for " ++ get_compound_name f
            ++ str ".") f (str "easy"))
    else qs
  ensure_diversity (isortQ (fun a b => decide (diffRank a ≤ diffRank b)) qs2)
    num_questions

/-- Python `process_document` (lines 836-856): preprocess, extract,
generate.  `none` models an uncaught exception escaping to the caller. -/
def process_document (rng : Rng) (document_text : List Char)
    (num_questions : Nat) : Option (List Q) :=
  generate_questions rng (extract_chemical_content (preprocess_text document_text))
    num_questions

end Chem

namespace GenQ

/-!  general_quiz_generation.py.  The sentence segmentation, dependency
parsing and TF-IDF similarity steps call opaque collaborators (spaCy,
scikit-learn); the parts modelled here are the pure post-processing
functions the claims are about. -/

/-- `self.question_types` (line 24). -/
def question_types : List (List Char) :=
  [str "definition", str "true_false", str "cloze", str "multiple_choice"]

/-- `type_counts = {q_type: 0 for q_type in self.question_types}`. -/
def initCounts : List (List Char × Nat) :=
  question_types.map (fun t => (t, 0))

/-- Overwrite the count stored for a key. -/
def countSet (k : List Char) (v : Nat) (m : List (List Char × Nat)) :
    List (List Char × Nat) :=
  m.map (fun p => if p.1 = k then (p.1, v) else p)

/-- First pass of `_ensure_diversity` (lines 368-372): walk the questions
keeping at most `cap` per type.  Reading `type_counts[q_type]` for a type
that is not a key — in particular `short_answer`, which the generators
produce but `question_types` does not list — raises `KeyError`, modelled by
`none`. -/
def gPass : List Q → Nat → List (List Char × Nat) → Option (List Q)
  | [], _, _ => some []
  | q :: qs, cap, counts =>
    match assocGet q.question_type counts with
    | none => none
    | some c =>
      if c < cap then
        (gPass qs cap (countSet q.question_type (c + 1) counts)).map
          (fun l => q :: l)
      else gPass qs cap counts

/-- Python `_ensure_diversity` (lines 362-378).  Note it takes no
`num_questions` argument and never truncates: after the capped first pass
it appends every remaining question, sorted by descending quality score. -/
def g_ensure_diversity (questions : List Q) : Option (List Q) :=
  let cap := max 3 (questions.length / question_types.length)
  match gPass questions cap initCounts with
  | none => none
  | some diverse =>
    some (diverse ++
      isortQ (fun a b => decide (b.quality_score ≤ a.quality_score))
        (questions.filter (fun q => decide (q ∉ diverse))))

/-- The tail of `generate_questions` (lines 137-140): diversity selection
followed by the `[:num_questions]` slice that the caller, not
`_ensure_diversity`, applies. -/
def g_select (questions : List Q) (num_questions : Nat) : Option (List Q) :=
  (g_ensure_diversity questions).map (fun l => l.take num_questions)

/-- Python `_create_definition_question` (lines 142-154). -/
def create_definition_question (term definition context sentence : List Char) :
    Q :=
  { question_type := str "short_answer",
    question := str "What is " ++ term ++ str "?",
    answer := Ans.s definition, context := context,
    source_sentence := sentence, difficulty := str "medium" }

/-- The padding filler of `_create_multiple_choice_question`. -/
def filler (term : List Char) : List Char :=
  str "None of the above regarding " ++ term

/-- Python `_create_multiple_choice_question` (lines 198-225): pad the
distractor list to three with the filler string (the same string each
time), cut to three, append the correct answer and shuffle.  The
distractors argument stands for the `_generate_distractors` result, whose
guards ensure no distractor equals the correct definition (its TF-IDF and
frequency steps call opaque collaborators). -/
def create_multiple_choice_question
    (shuffleF : List (List Char) → List (List Char))
    (term correct context sentence : List Char)
    (distractors0 : List (List Char)) : Q :=
  let distractors :=
    (distractors0 ++ List.replicate (3 - distractors0.length) (filler term)).take 3
  { question_type := str "multiple_choice",
    question := str "What is " ++ term ++ str "?",
    options := shuffleF (distractors ++ [correct]),
    answer := Ans.s correct, context := context,
    source_sentence := sentence, difficulty := str "medium" }

end GenQ

namespace Backend

/-!  `chunk_text_by_headers` (backend/src/main.py, lines 37-54). -/

/-- The character class `[A-Z\s\-:0-9]` of the header pattern (note that
`\s` includes the newline, so a header capture can span lines). -/
def hClass (c : Char) : Bool :=
  c.isUpper || pyWS c || c == '-' || c == ':' || c.isDigit

/-- Capture length of `([A-Z][A-Z\s\-:0-9]{5,})` followed by `\n` at the
head of the text: the greedy run backtracks to the last newline inside it
that leaves a capture of length at least six. -/
def tryHeader (rest : List Char) : Option Nat :=
  match rest with
  | [] => none
  | c :: _ =>
    if c.isUpper then
      ((List.range (rest.takeWhile hClass).length).filter (fun i =>
        decide (rest.getD i ' ' = '\n') && decide (6 ≤ i))).getLast?
    else none

/-- All matches of `(?:^|\n)([A-Z][A-Z\s\-:0-9]{5,})\n` over the text as
`(start, end, topic)` triples, scanning left to right and continuing after
each match (`re.finditer`); the leading `^` alternative applies only at
position zero, the `\n` alternative consumes that newline. -/
def scanH : Nat → Nat → List Char → List (Nat × Nat × List Char)
  | k + 1, pos, _ :: cs => scanH k (pos + 1) cs
  | _, _, [] => []
  | 0, pos, c :: cs =>
    if pos = 0 then
      match tryHeader (c :: cs) with
      | some L => (0, L + 1, strip ((c :: cs).take L)) :: scanH L (pos + 1) cs
      | none =>
        if c == '\n' then
          match tryHeader cs with
          | some L =>
            (0, 1 + (L + 1), strip (cs.take L)) :: scanH (L + 1) (pos + 1) cs
          | none => scanH 0 (pos + 1) cs
        else scanH 0 (pos + 1) cs
    else
      if c == '\n' then
        match tryHeader cs with
        | some L =>
          (pos, pos + 1 + (L + 1), strip (cs.take L)) :: scanH (L + 1) (pos + 1) cs
        | none => scanH 0 (pos + 1) cs
      else scanH 0 (pos + 1) cs

/-- The `matches` list of `chunk_text_by_headers`. -/
def findHeaders (text : List Char) : List (Nat × Nat × List Char) :=
  scanH 0 0 text

/-- Start of the next match, or the end of the text for the last one
(`matches[i + 1].start() if i + 1 < len(matches) else len(text)`). -/
def nextStart (text : List Char) : List (Nat × Nat × List Char) → Nat
  | m2 :: _ => m2.1
  | [] => text.length

/-- One loop iteration of the chunk builder: the text from the match's end
to `nxt`, stripped; a chunk with empty stripped content is dropped. -/
def mkChunk1 (text : List Char) (m : Nat × Nat × List Char) (nxt : Nat) :
    List (List Char × List Char) :=
  let content := strip ((text.drop m.2.1).take (nxt - m.2.1))
  if decide (content ≠ []) then [(m.2.2, content)] else []

/-- The chunk-building loop over the matches. -/
def mkChunks (text : List Char) : List (Nat × Nat × List Char) →
    List (List Char × List Char)
  | [] => []
  | m :: rest => mkChunk1 text m (nextStart text rest) ++ mkChunks text rest

/-- Python `chunk_text_by_headers`; `reqTopic` stands for the caller's
`req.topic or "General"`.  When the header pass yields no chunk, the text
is split into 800-word windows (`range(0, len(words), 800)` has
`⌈len/800⌉` elements). -/
def chunk_text_by_headers (text : List Char) (reqTopic : List Char) :
    List (List Char × List Char) :=
  if decide (mkChunks text (findHeaders text) = []) then
    (List.range (((pySplitWS text).length + 799) / 800)).map (fun i =>
      (reqTopic, joinSpace (((pySplitWS text).drop (i * 800)).take 800)))
  else mkChunks text (findHeaders text)

/-- Header-shaped line, following the spec's words (§4.4): a line of at
least six uppercase letters, digits, spaces, hyphens or colons that starts
with an uppercase letter. -/
def headerShapedLine (l : List Char) : Bool :=
  match l with
  | [] => false
  | c :: _ =>
    c.isUpper
    && l.all (fun x => x.isUpper || x == ' ' || x == '-' || x == ':' || x.isDigit)
    && decide (6 ≤ l.length)

/-- Number of header-shaped lines of a text (spec-side count). -/
def headerShapedCount (text : List Char) : Nat :=
  ((splitOnChar '\n' text).filter headerShapedLine).length

end Backend

/-- A short-answer question as `_create_definition_question` produces it,
used to exhibit the general pipeline's `KeyError`. -/
def gDemoShortAnswer : Q :=
  GenQ.create_definition_question (str "Xy") (str "a subset of machine learning")
    (str "ctx") (str "src")

/-- A cloze question with index `i`, as `_create_cloze_question` shapes it;
used to exercise the general diversity selector. -/
def gDemoCloze (i : Nat) : Q :=
  { question_type := str "cloze",
    question := str "Fill in the blank: " ++ natToStr i,
    answer := Ans.s (str "term"), difficulty := str "easy",
    context := str "ctx", source_sentence := str "src" }

/-- A concrete oracle: sampling takes a prefix (which is a duplicate-free
selection from the population) and shuffling is the identity permutation. -/
def rngTake : Rng :=
  { pickF := fun _ l => l.getD 0 [],
    sampleF := fun l k => l.take k,
    shuffleF := fun l => l }

/-- A content record with one detected formula, used to instantiate
generator theorems at a concrete input. -/
def contentH2O : Chem.Content :=
  { formulas := [str "H2O"], equations := [], element_mentions := [],
    compound_mentions := [], concepts := [] }

/-! Helper lemmas. -/

theorem splitOnChar_ne_nil (sep : Char) (l : List Char) :
    splitOnChar sep l ≠ [] := by
  induction l with
  | nil => simp [splitOnChar]
  | cons c rest ih =>
    simp only [splitOnChar]
    by_cases h : (c == sep) = true
    · simp [h]
    · simp only [h]
      cases hs : splitOnChar sep rest with
      | nil => simp
      | cons a t => simp

theorem sideParts_ne_nil (s : List Char) : Chem.sideParts s ≠ [] := by
  simp only [Chem.sideParts]
  intro h
  exact splitOnChar_ne_nil '+' s (by simpa using h)

/-- Claim C1 (code_bug evidence).  The spec says no per-item failure may
escape `process_document` and the only caller-visible failure is a short or
empty list.  The code disagrees twice: the chemistry `_ensure_diversity`
divides `num_questions` by the number of question types, which is zero when
no question was generated (e.g. for the empty document), raising
`ZeroDivisionError`; and the general `_ensure_diversity` reads
`type_counts[q_type]` for the `short_answer` questions its own generators
produce, a key absent from `question_types`, raising `KeyError`.  `none`
models the escaped exception. -/
theorem c1_process_document_uncaught_errors :
    (∀ (rng : Rng) (n : Nat), Chem.process_document rng (str "") n = none)
    ∧ GenQ.g_ensure_diversity [gDemoShortAnswer] = none := by
  constructor
  · intro rng n
    rfl
  · rfl

/-- Claim C2 (code_bug evidence).  `classify_reaction_type` never reaches
its combustion branch: the redox stub compares empty oxidation-state dicts
with `abs(r - p)`, raising `TypeError` for every equation that splits into
two sides, and the handler returns "unknown".  In particular the spec's
example `CH4 + O2 → CO2 + H2O` classifies as "unknown", not "combustion". -/
theorem c2_classify_reaction_type_always_unknown :
    Chem.classify_reaction_type (str "CH4 + O2 → CO2 + H2O") = str "unknown"
    ∧ ∀ equation, Chem.classify_reaction_type equation = str "unknown" := by
  refine ⟨by decide, ?_⟩
  intro equation
  unfold Chem.classify_reaction_type Chem.classifyBody
  cases hsplit : splitOnChar '→' equation with
  | nil => rfl
  | cons a t =>
    cases t with
    | nil => rfl
    | cons b t2 =>
      cases t2 with
      | nil =>
        obtain ⟨r0, rs, hr⟩ := List.exists_cons_of_ne_nil (sideParts_ne_nil a)
        obtain ⟨p0, ps, hp⟩ := List.exists_cons_of_ne_nil (sideParts_ne_nil b)
        simp only [hr, hp, List.map_cons, List.zip_cons_cons, List.isEmpty_cons,
          Bool.false_eq_true, if_false]
      | cons c3 t3 => rfl

/-- Claim C3 (confirmed).  `balance_equation` turns `H2 + O2 → H2O` into
exactly `2 H2 + O2 → 2 H2O`, and every output is either the input unchanged
(the error path) or rendered from a list of integer coefficients — the
source truncates with `int(...)` and scales by an integer lcm, so no
fractional coefficient is ever printed. -/
theorem c3_balance_equation_example_and_integer_coefficients :
    Chem.balance_equation (str "H2 + O2 → H2O") = str "2 H2 + O2 → 2 H2O"
    ∧ ∀ equation, Chem.balance_equation equation = equation
      ∨ ∃ (coeffs : List Int) (reactants products : List (List Char)),
          Chem.balanceCore equation = some (coeffs, reactants, products)
          ∧ Chem.balance_equation equation =
              Chem.renderBalanced coeffs reactants products := by
  refine ⟨by decide, ?_⟩
  intro equation
  unfold Chem.balance_equation
  cases h : Chem.balanceCore equation with
  | none => exact Or.inl rfl
  | some v => exact Or.inr ⟨v.1, v.2.1, v.2.2, rfl, rfl⟩

/-- Claim C4 (counterexample).  `balance_equation` produced
`2 H2 + O2 → 2 H2O` from `H2 + O2 → H2O`, yet applied to that own output it
returns a different string (it re-parses `2 H2` as a compound named
"2 H2" and prefixes a second coefficient), so it is not idempotent on
already-balanced equations. -/
theorem c4_balance_not_idempotent_counterexample :
    Chem.balance_equation (str "H2 + O2 → H2O") = str "2 H2 + O2 → 2 H2O"
    ∧ Chem.balance_equation (str "2 H2 + O2 → 2 H2O")
        ≠ str "2 H2 + O2 → 2 H2O" := by
  constructor
  · decide
  · decide

/-- Claim C4 (amended).  Re-balancing the output for `H2 + O2 → H2O`
prepends a second coefficient, giving `2 2 H2 + O2 → 2 2 H2O`; idempotence
holds only on the error path, i.e. on inputs that do not split into exactly
two sides at the arrow, which `balance_equation` returns unchanged (the
equation-question generator avoids re-balancing coefficiented equations via
its `^\d+\s*[A-Z]` guard instead). -/
theorem c4_balance_idempotent_only_on_unparsed :
    Chem.balance_equation (str "2 H2 + O2 → 2 H2O") = str "2 2 H2 + O2 → 2 2 H2O"
    ∧ ∀ equation, (splitOnChar '→' equation).length ≠ 2 →
        Chem.balance_equation (Chem.balance_equation equation)
          = Chem.balance_equation equation := by
  refine ⟨by decide, ?_⟩
  intro equation hlen
  have hcore : Chem.balanceCore equation = none := by
    unfold Chem.balanceCore
    cases hsplit : splitOnChar '→' equation with
    | nil => rfl
    | cons a t =>
      cases t with
      | nil => rfl
      | cons b t2 =>
        cases t2 with
        | nil => exact absurd (by rw [hsplit]; rfl) hlen
        | cons c3 t3 => rfl
  have hid : Chem.balance_equation equation = equation := by
    unfold Chem.balance_equation
    rw [hcore]
  rw [hid, hid]

/-- Witness for the amended claim C4 at a concrete arrow-free input. -/
theorem c4_balance_idempotent_only_on_unparsed_witness :
    (splitOnChar '→' (str "no arrow")).length ≠ 2
    ∧ Chem.balance_equation (Chem.balance_equation (str "no arrow"))
        = Chem.balance_equation (str "no arrow") :=
  ⟨by decide, (c4_balance_idempotent_only_on_unparsed).2 (str "no arrow") (by decide)⟩

/-! Permutation and dedup facts used for the diversity selectors. -/

theorem insStable_perm (le : Q → Q → Bool) (x : Q) (l : List Q) :
    (insStable le x l).Perm (x :: l) := by
  induction l with
  | nil => exact List.Perm.refl _
  | cons y ys ih =>
    simp only [insStable]
    by_cases h : le x y = true
    · simp only [h, if_true]
      exact List.Perm.refl _
    · simp only [h, Bool.false_eq_true, if_false]
      exact (ih.cons y).trans (List.Perm.swap x y ys)

theorem isortQ_perm (le : Q → Q → Bool) (l : List Q) :
    (isortQ le l).Perm l := by
  induction l with
  | nil => exact List.Perm.refl _
  | cons x xs ih =>
    exact (insStable_perm le x (isortQ le xs)).trans (ih.cons x)

theorem firstDedupGo_mem : ∀ (l : List (List Char)) (seen : List (List Char))
    (x : List Char), x ∈ firstDedupGo seen l → x ∉ seen ∧ x ∈ l := by
  intro l
  induction l with
  | nil => intro seen x hx; simp [firstDedupGo] at hx
  | cons a as ih =>
    intro seen x hx
    simp only [firstDedupGo] at hx
    by_cases ha : a ∈ seen
    · simp only [if_pos ha] at hx
      obtain ⟨h1, h2⟩ := ih seen x hx
      exact ⟨h1, List.mem_cons_of_mem a h2⟩
    · simp only [if_neg ha] at hx
      rcases List.mem_cons.mp hx with rfl | hx2
      · exact ⟨ha, List.mem_cons_self _ _⟩
      · obtain ⟨h1, h2⟩ := ih (a :: seen) x hx2
        exact ⟨fun hs => h1 (List.mem_cons_of_mem a hs), List.mem_cons_of_mem a h2⟩

theorem firstDedupGo_nodup : ∀ (l : List (List Char)) (seen : List (List Char)),
    (firstDedupGo seen l).Nodup := by
  intro l
  induction l with
  | nil => intro seen; simp [firstDedupGo]
  | cons a as ih =>
    intro seen
    simp only [firstDedupGo]
    by_cases ha : a ∈ seen
    · simp only [if_pos ha]; exact ih seen
    · simp only [if_neg ha]
      refine List.Nodup.cons ?_ (ih (a :: seen))
      intro hmem
      exact (firstDedupGo_mem as (a :: seen) a hmem).1 (List.mem_cons_self _ _)

theorem firstDedup_nodup (l : List (List Char)) : (firstDedup l).Nodup :=
  firstDedupGo_nodup l []

theorem edGroup_take_type (questions : List Q) (per : Nat) (t : List Char)
    (q : Q) (h : q ∈ (Chem.edGroup questions t).take per) :
    q.question_type = t := by
  have := (List.mem_filter.mp (List.mem_of_mem_take h)).2
  exact of_decide_eq_true this

theorem edFirstPass_nodup (questions : List Q) (per : Nat)
    (qtypes : List (List Char)) (hq : questions.Nodup) (ht : qtypes.Nodup) :
    (Chem.edFirstPass questions per qtypes).Nodup := by
  rw [Chem.edFirstPass, List.nodup_flatten]
  constructor
  · intro l hl
    obtain ⟨t, _, rfl⟩ := List.mem_map.mp hl
    exact ((List.take_sublist _ _).trans (List.filter_sublist _)).nodup hq
  · refine List.Pairwise.map _ ?_ ht
    intro a b hab q hqa hqb
    exact hab ((edGroup_take_type questions per a q hqa) ▸
      (edGroup_take_type questions per b q hqb))

theorem edFirstPass_mem_used (questions : List Q) (per : Nat)
    (qtypes : List (List Char)) (q : Q)
    (h : q ∈ Chem.edFirstPass questions per qtypes) :
    q.question ∈ (Chem.edFirstPass questions per qtypes).map Q.question :=
  List.mem_map_of_mem Q.question h

theorem edRest_mem (questions : List Q) (used : List (List Char)) (q : Q)
    (h : q ∈ Chem.edRest questions used) :
    q ∈ questions ∧ q.question ∉ used := by
  have hmem := (isortQ_perm _ _).mem_iff.mp h
  have := List.mem_filter.mp hmem
  exact ⟨this.1, of_decide_eq_true this.2⟩

theorem edRest_nodup (questions : List Q) (used : List (List Char))
    (hq : questions.Nodup) : (Chem.edRest questions used).Nodup :=
  ((isortQ_perm _ _).symm).nodup ((List.filter_sublist _).nodup hq)

/-- The chemistry diversity selector truncates its result to
`num_questions`. -/
theorem chem_ensure_diversity_len (qs : List Q) (n : Nat) (out : List Q)
    (h : Chem.ensure_diversity qs n = some out) : out.length ≤ n := by
  unfold Chem.ensure_diversity at h
  cases hd : firstDedup (qs.map Q.question_type) with
  | nil => rw [hd] at h; exact absurd h (by simp)
  | cons t0 ts =>
    rw [hd] at h
    simp only [Option.some.injEq] at h
    rw [← h]
    exact List.length_take_le _ _

/-- The chemistry diversity selector never emits the same question value
twice when its input has no duplicate. -/
theorem chem_ensure_diversity_nodup (qs : List Q) (n : Nat) (out : List Q)
    (h : Chem.ensure_diversity qs n = some out) (hnd : qs.Nodup) :
    out.Nodup := by
  unfold Chem.ensure_diversity at h
  cases hd : firstDedup (qs.map Q.question_type) with
  | nil => rw [hd] at h; exact absurd h (by simp)
  | cons t0 ts =>
    rw [hd] at h
    simp only [Option.some.injEq] at h
    have htnd : (t0 :: ts).Nodup := hd ▸ firstDedup_nodup _
    have hfp : (Chem.edFirstPass qs (max 1 (n / (t0 :: ts).length)) (t0 :: ts)).Nodup :=
      edFirstPass_nodup qs _ _ hnd htnd
    rw [← h]
    refine List.Sublist.nodup (List.take_sublist _ _) ?_
    by_cases hlt :
        (Chem.edFirstPass qs (max 1 (n / (t0 :: ts).length)) (t0 :: ts)).length < n
    · simp only [if_pos hlt]
      refine hfp.append ?_ ?_
      · exact List.Sublist.nodup (List.take_sublist _ _) (edRest_nodup qs _ hnd)
      · intro q hq1 hq2
        have h2 := edRest_mem qs _ q (List.mem_of_mem_take hq2)
        exact h2.2 (List.mem_map_of_mem Q.question hq1)
    · simp only [if_neg hlt]
      exact hfp

/-- The general `generate_questions` tail truncates after the selector. -/
theorem g_select_len (qs : List Q) (n : Nat) (out : List Q)
    (h : GenQ.g_select qs n = some out) : out.length ≤ n := by
  unfold GenQ.g_select at h
  cases hg : GenQ.g_ensure_diversity qs with
  | none => rw [hg] at h; exact absurd h (by simp)
  | some l =>
    rw [hg] at h
    have h2 : l.take n = out := by simpa using h
    rw [← h2]
    exact List.length_take_le _ _

/-- Claim C6 (counterexample).  The general pipeline's `_ensure_diversity`
takes no `num_questions` argument and never truncates: on four distinct
cloze questions its first pass keeps three (`max(3, 4 // 4)`) and the
second pass appends the leftover one, returning four items — more than a
requested `num_questions` of three.  The `[:num_questions]` slice lives in
its caller `generate_questions`, not in the selector. -/
theorem c6_diversity_counterexample :
    (GenQ.g_ensure_diversity
      [gDemoCloze 1, gDemoCloze 2, gDemoCloze 3, gDemoCloze 4]).map List.length
      = some 4 := by decide

/-- Claim C6 (amended).  The chemistry `_ensure_diversity` returns at most
`num_questions` items and, for duplicate-free inputs, never repeats a
question; the general `_ensure_diversity` applies no bound itself, and the
at-most-`num_questions` property holds only after its caller's
`[:num_questions]` slice (`g_select`). -/
theorem c6_diversity_bounds :
    (∀ (qs : List Q) (n : Nat) (out : List Q),
      Chem.ensure_diversity qs n = some out → out.length ≤ n)
    ∧ (∀ (qs : List Q) (n : Nat) (out : List Q),
      Chem.ensure_diversity qs n = some out → qs.Nodup → out.Nodup)
    ∧ (∀ (qs : List Q) (n : Nat) (out : List Q),
      GenQ.g_select qs n = some out → out.length ≤ n) :=
  ⟨chem_ensure_diversity_len, chem_ensure_diversity_nodup, g_select_len⟩

/-- Witness for the amended claim C6 at concrete inputs. -/
theorem c6_diversity_bounds_witness :
    ([gDemoCloze 1].length ≤ 1 ∧ [gDemoCloze 1].Nodup
      ∧ ([] : List Q).length ≤ 0)
    ∧ Chem.ensure_diversity [gDemoCloze 1] 1 = some [gDemoCloze 1]
    ∧ GenQ.g_select [gDemoCloze 1] 0 = some [] :=
  ⟨⟨c6_diversity_bounds.1 [gDemoCloze 1] 1 [gDemoCloze 1] (by decide),
    c6_diversity_bounds.2.1 [gDemoCloze 1] 1 [gDemoCloze 1] (by decide) (by decide),
    c6_diversity_bounds.2.2 [gDemoCloze 1] 0 [] (by decide)⟩,
   by decide, by decide⟩

/-! Multiple-choice option invariants (claim C7). -/

theorem compoundNames_nodup : (Chem.compoundsTable.map Prod.fst).Nodup := by
  decide

theorem occs_perm (x : List Char) (l1 l2 : List (List Char))
    (h : l1.Perm l2) : occs x l1 = occs x l2 :=
  h.countP_eq _

theorem occs_cons_self (x : List Char) (l : List (List Char)) :
    occs x (x :: l) = occs x l + 1 := by
  simp [occs, List.countP_cons]

theorem occs_eq_zero (x : List Char) (l : List (List Char)) (h : x ∉ l) :
    occs x l = 0 := by
  refine List.countP_eq_zero.mpr ?_
  intro a ha
  simp only [decide_eq_true_eq]
  intro he
  exact h (he ▸ ha)

theorem occs_append (x : List Char) (l1 l2 : List (List Char)) :
    occs x (l1 ++ l2) = occs x l1 + occs x l2 := by
  simp [occs, List.countP_append]

/-- The options of a compound multiple-choice question hold the answer
exactly once and number exactly four, given the `random.sample` and
`random.shuffle` contracts. -/
theorem compoundMCQ_opts (rng : Rng) (name formula : List Char)
    (hsample : ∀ (l : List (List Char)) (k : Nat), k ≤ l.length →
      (rng.sampleF l k).length = k ∧ ∀ x ∈ rng.sampleF l k, x ∈ l)
    (hshuffle : ∀ l : List (List Char), (rng.shuffleF l).Perm l)
    (hmem : name ∈ Chem.compoundsTable.map Prod.fst) :
    occs name (Chem.compoundMCQ rng name formula).options = 1
    ∧ (Chem.compoundMCQ rng name formula).options.length = 4 := by
  have hk : min 3 ((Chem.compoundsTable.map Prod.fst).erase name).length
      ≤ ((Chem.compoundsTable.map Prod.fst).erase name).length :=
    Nat.min_le_right _ _
  have hs := hsample ((Chem.compoundsTable.map Prod.fst).erase name) _ hk
  have hperm := hshuffle (name :: rng.sampleF
    ((Chem.compoundsTable.map Prod.fst).erase name)
    (min 3 ((Chem.compoundsTable.map Prod.fst).erase name).length))
  have hnotmem : name ∉ rng.sampleF
      ((Chem.compoundsTable.map Prod.fst).erase name)
      (min 3 ((Chem.compoundsTable.map Prod.fst).erase name).length) :=
    fun hin => compoundNames_nodup.not_mem_erase (hs.2 name hin)
  have hlen15 : ((Chem.compoundsTable.map Prod.fst).erase name).length = 15 := by
    rw [List.length_erase_of_mem hmem]
    rfl
  have hE : (Chem.compoundMCQ rng name formula).options = rng.shuffleF
      (name :: rng.sampleF ((Chem.compoundsTable.map Prod.fst).erase name)
        (min 3 ((Chem.compoundsTable.map Prod.fst).erase name).length)) := rfl
  constructor
  · rw [hE, occs_perm name _ _ hperm, occs_cons_self,
      occs_eq_zero name _ hnotmem]
  · rw [hE, hperm.length_eq, List.length_cons, hs.1, hlen15]
    decide

/-- Claim C7 (counterexample).  In the general pipeline the correct
definition can itself equal the padding filler: the sentence
`Xy is None of the above regarding Xy.` gives, through the definition
regex, the term `Xy` with definition `None of the above regarding Xy`.
`_generate_distractors` can return the empty list (no other definition
concepts, all-stopword context), the padding loop then appends the same
filler string three times, and under the identity shuffle (one possible
permutation) the answer appears four times in the options — not exactly
once. -/
theorem c7_mcq_answer_once_counterexample :
    occs (GenQ.filler (str "Xy"))
      (GenQ.create_multiple_choice_question (fun l => l) (str "Xy")
        (GenQ.filler (str "Xy")) (str "ctx") (str "src") []).options = 4 := by
  decide

/-- Claim C7 (amended).  In the chemistry formula-name branch every
multiple-choice question holds its answer exactly once among at least four
options (the name is removed from the sampled population); the general
distractor branch produces exactly four options holding the answer exactly
once provided the correct definition is not itself the padding filler
string `None of the above regarding <term>` — with that pathological
definition it appears more than once.  Hypotheses state what
`random.sample` and `random.shuffle` guarantee: a sample of the requested
size drawn from the population, and a permutation. -/
theorem c7_mcq_answer_once_amended :
    (∀ (rng : Rng) (content : Chem.Content),
      (∀ (l : List (List Char)) (k : Nat), k ≤ l.length →
        (rng.sampleF l k).length = k ∧ ∀ x ∈ rng.sampleF l k, x ∈ l) →
      (∀ l : List (List Char), (rng.shuffleF l).Perm l) →
      ∀ q ∈ Chem.formulaNameQs rng content,
        q.question_type = str "multiple_choice" →
        occs (ansText q.answer) q.options = 1 ∧ 4 ≤ q.options.length)
    ∧ (∀ (shuffleF : List (List Char) → List (List Char))
        (term correct context sentence : List Char) (ds : List (List Char)),
      (∀ l, (shuffleF l).Perm l) →
      (∀ d ∈ ds, d ≠ correct) →
      correct ≠ GenQ.filler term →
      occs correct (GenQ.create_multiple_choice_question shuffleF term correct
        context sentence ds).options = 1
      ∧ (GenQ.create_multiple_choice_question shuffleF term correct context
        sentence ds).options.length = 4) := by
  constructor
  · intro rng content hsample hshuffle q hq htype
    unfold Chem.formulaNameQs at hq
    obtain ⟨l, hl, hql⟩ := List.mem_flatten.mp hq
    obtain ⟨nf, hnf, rfl⟩ := List.mem_map.mp hl
    by_cases hc : (decide (nf.2 ∈ content.formulas)
        || decide (nf ∈ content.compound_mentions)) = true
    · rw [if_pos hc] at hql
      rcases List.mem_cons.mp hql with rfl | hql2
      · have hbad : str "short_answer" = str "multiple_choice" := htype
        exact absurd hbad (by decide)
      · rcases List.mem_cons.mp hql2 with rfl | hql3
        · have h2 := compoundMCQ_opts rng nf.1 nf.2 hsample hshuffle
            (List.mem_map_of_mem Prod.fst hnf)
          have hAns : ansText (Chem.compoundMCQ rng nf.1 nf.2).answer = nf.1 := rfl
          rw [hAns]
          exact ⟨h2.1, h2.2.ge⟩
        · exact absurd hql3 (by simp)
    · rw [if_neg hc] at hql
      exact absurd hql (by simp)
  · intro shuffleF term correct context sentence ds hshuffle hds hfil
    have hperm := hshuffle
      (((ds ++ List.replicate (3 - ds.length) (GenQ.filler term)).take 3)
        ++ [correct])
    have hnotmem : correct ∉
        (ds ++ List.replicate (3 - ds.length) (GenQ.filler term)).take 3 := by
      intro hin
      rcases List.mem_append.mp (List.mem_of_mem_take hin) with h1 | h2
      · exact hds correct h1 rfl
      · exact hfil (List.eq_of_mem_replicate h2)
    have hlen3 :
        ((ds ++ List.replicate (3 - ds.length) (GenQ.filler term)).take 3).length
          = 3 := by
      rw [List.length_take, List.length_append, List.length_replicate]
      omega
    have hE : (GenQ.create_multiple_choice_question shuffleF term correct
        context sentence ds).options = shuffleF
      (((ds ++ List.replicate (3 - ds.length) (GenQ.filler term)).take 3)
        ++ [correct]) := rfl
    constructor
    · rw [hE, occs_perm _ _ _ hperm, occs_append, occs_eq_zero _ _ hnotmem]
      simp [occs, List.countP_cons]
    · rw [hE, hperm.length_eq, List.length_append, hlen3]
      rfl

/-- Witness for the amended claim C7 at concrete inputs. -/
theorem c7_mcq_answer_once_amended_witness :
    (occs (str "Water")
        (Chem.mkMC (str "What is the name of the compound with the formula H2O?")
          [str "Water", str "Carbon Dioxide", str "Methane", str "Ammonia"]
          (str "Water") (str "easy")).options = 1
      ∧ 4 ≤ (Chem.mkMC (str "What is the name of the compound with the formula H2O?")
        [str "Water", str "Carbon Dioxide", str "Methane", str "Ammonia"]
        (str "Water") (str "easy")).options.length)
    ∧ (occs (str "a correct definition")
        (GenQ.create_multiple_choice_question (fun l => l) (str "Term")
          (str "a correct definition") (str "ctx") (str "src") []).options = 1
      ∧ (GenQ.create_multiple_choice_question (fun l => l) (str "Term")
        (str "a correct definition") (str "ctx") (str "src")
        []).options.length = 4) := by
  constructor
  · have h := c7_mcq_answer_once_amended.1 rngTake contentH2O
      (by
        intro l k hk
        refine ⟨?_, fun x hx => List.mem_of_mem_take hx⟩
        show (l.take k).length = k
        rw [List.length_take]
        exact Nat.min_eq_left hk)
      (fun l => List.Perm.refl l)
      (Chem.mkMC (str "What is the name of the compound with the formula H2O?")
        [str "Water", str "Carbon Dioxide", str "Methane", str "Ammonia"]
        (str "Water") (str "easy"))
      (by decide) (by decide)
    exact h
  · exact c7_mcq_answer_once_amended.2 (fun l => l) (str "Term")
      (str "a correct definition") (str "ctx") (str "src") []
      (fun l => List.Perm.refl l) (by simp) (by decide)

/-! The backend chunker (claim C8). -/

theorem mkChunk1_length_le (text : List Char) (m : Nat × Nat × List Char)
    (nxt : Nat) : (Backend.mkChunk1 text m nxt).length ≤ 1 := by
  unfold Backend.mkChunk1
  simp only []
  split
  · simp
  · simp

theorem mkChunks_length_le (text : List Char)
    (ms : List (Nat × Nat × List Char)) :
    (Backend.mkChunks text ms).length ≤ ms.length := by
  induction ms with
  | nil => simp [Backend.mkChunks]
  | cons m rest ih =>
    rw [Backend.mkChunks, List.length_append, List.length_cons]
    have h1 := mkChunk1_length_le text m (Backend.nextStart text rest)
    omega

/-- Claim C8 (counterexample).  The text `AAAAAA\n\nBBBBBB\nbody` has two
header-shaped lines, but the header regex — whose character class contains
`\s` and hence the newline — greedily captures across the blank line and
merges both headers into one match, so only one chunk is produced, not
two.  (Text before the first header is likewise never covered by any
chunk.) -/
theorem c8_chunker_counterexample :
    Backend.headerShapedCount (str "AAAAAA\n\nBBBBBB\nbody") = 2
    ∧ Backend.chunk_text_by_headers (str "AAAAAA\n\nBBBBBB\nbody") (str "General")
        = [(str "AAAAAA\n\nBBBBBB", str "body")] := by
  constructor
  · decide
  · decide

/-- Claim C8 (amended).  When the header regex finds no match (and hence no
chunk), the fallback makes exactly `⌈word_count / 800⌉` windows; when the
header pass yields at least one chunk, the number of chunks is at most the
number of regex matches — one per match whose following span (from the
match's end to the next match's start, with no gap or overlap between
consecutive spans) has nonempty stripped content.  Adjacent or
whitespace-separated header lines merge into a single match, and text
before the first header is not covered. -/
theorem c8_chunker_amended :
    (∀ (text topic : List Char), Backend.findHeaders text = [] →
      (Backend.chunk_text_by_headers text topic).length
        = ((pySplitWS text).length + 799) / 800)
    ∧ (∀ (text topic : List Char),
      Backend.mkChunks text (Backend.findHeaders text) ≠ [] →
      (Backend.chunk_text_by_headers text topic).length
        ≤ (Backend.findHeaders text).length) := by
  constructor
  · intro text topic h
    unfold Backend.chunk_text_by_headers
    rw [h]
    simp [Backend.mkChunks]
  · intro text topic h
    unfold Backend.chunk_text_by_headers
    rw [if_neg (by simpa using h)]
    exact mkChunks_length_le text (Backend.findHeaders text)

/-- Witness for the amended claim C8 at concrete inputs. -/
theorem c8_chunker_amended_witness :
    (Backend.findHeaders (str "plain words only") = []
      ∧ (Backend.chunk_text_by_headers (str "plain words only")
          (str "General")).length
        = ((pySplitWS (str "plain words only")).length + 799) / 800)
    ∧ (Backend.mkChunks (str "AAAAAA\n\nBBBBBB\nbody")
        (Backend.findHeaders (str "AAAAAA\n\nBBBBBB\nbody")) ≠ []
      ∧ (Backend.chunk_text_by_headers (str "AAAAAA\n\nBBBBBB\nbody")
          (str "General")).length
        ≤ (Backend.findHeaders (str "AAAAAA\n\nBBBBBB\nbody")).length) :=
  ⟨⟨by decide, c8_chunker_amended.1 (str "plain words only") (str "General")
      (by decide)⟩,
   ⟨by decide, c8_chunker_amended.2 (str "AAAAAA\n\nBBBBBB\nbody") (str "General")
      (by decide)⟩⟩

/-! Single-unit formulas (claim C10). -/

theorem takeWhile_digits_eq_self (l : List Char)
    (h : l.all Char.isDigit = true) : l.takeWhile Char.isDigit = l := by
  rw [List.takeWhile_eq_self_iff]
  intro a ha
  exact (List.all_eq_true.mp h) a ha

theorem parse_core_nil (fuel mult : Nat) (acc : List (List Char × Nat)) :
    Chem.parse_core fuel [] mult acc = acc := by
  cases fuel with
  | zero => rfl
  | succ f => rfl

theorem unitAt_shape (cs u : List Char) (h : Chem.unitAt cs = some u) :
    Chem.unitShape u = true := by
  cases cs with
  | nil => exact absurd h (by simp [Chem.unitAt])
  | cons c rest =>
    simp only [Chem.unitAt] at h
    by_cases hu : c.isUpper = true
    · rw [if_pos hu] at h
      simp only [Option.some.injEq] at h
      rw [← h]
      have htwAll : ∀ l : List Char,
          ((l.takeWhile Char.isDigit).all Char.isDigit) = true :=
        fun l => List.all_eq_true.mpr (fun a ha => List.mem_takeWhile_imp ha)
      cases rest with
      | nil => simp [Chem.unitShape, Chem.lowTail, Chem.unitTail, hu]
      | cons d r2 =>
        by_cases hl : d.isLower = true
        · simp only [Chem.lowTail, if_pos hl, List.singleton_append,
            List.cons_append, List.nil_append]
          simp [Chem.unitShape, Chem.unitTail, hu, hl, htwAll]
        · simp only [Chem.lowTail, if_neg hl, List.nil_append]
          cases htw : (d :: r2).takeWhile Char.isDigit with
          | nil => simp [Chem.unitShape, Chem.unitTail, hu, htw]
          | cons t ts =>
            have hall : ((t :: ts).all Char.isDigit) = true := by
              rw [← htw]
              exact htwAll _
            simp [Chem.unitShape, Chem.unitTail, hu, htw, hall]
    · rw [if_neg hu] at h
      exact absurd h (by simp)

theorem unitsRunF_shape : ∀ (fuel : Nat) (cs u : List Char) (k : Nat),
    Chem.unitsRunF fuel cs = some (u, k) → Chem.unitShape u = true := by
  intro fuel
  induction fuel with
  | zero => intro cs u k h; exact absurd h (by simp [Chem.unitsRunF])
  | succ f ih =>
    intro cs u k h
    simp only [Chem.unitsRunF] at h
    cases ha : Chem.unitAt cs with
    | none =>
      simp only [ha] at h
      exact Option.noConfusion h
    | some u0 =>
      simp only [ha] at h
      cases hr : Chem.unitsRunF f (cs.drop u0.length) with
      | none =>
        simp only [hr, Option.some.injEq, Prod.mk.injEq] at h
        rw [← h.1]
        exact unitAt_shape cs u0 ha
      | some p =>
        obtain ⟨u1, k1⟩ := p
        simp only [hr, Option.some.injEq, Prod.mk.injEq] at h
        rw [← h.1]
        exact ih (cs.drop u0.length) u1 k1 hr

theorem findFormulasA_shape : ∀ (cs : List Char) (k : Nat) (f : List Char),
    f ∈ Chem.findFormulasA k cs → Chem.unitShape f = true := by
  intro cs
  induction cs with
  | nil =>
    intro k f hf
    cases k with
    | zero => exact absurd hf (by simp [Chem.findFormulasA])
    | succ k2 => exact absurd hf (by simp [Chem.findFormulasA])
  | cons c rest ih =>
    intro k f hf
    cases k with
    | succ k2 =>
      exact ih k2 f hf
    | zero =>
      simp only [Chem.findFormulasA] at hf
      cases hr : Chem.unitsRunF (c :: rest).length (c :: rest) with
      | none =>
        simp only [hr] at hf
        exact ih 0 f hf
      | some p =>
        obtain ⟨u1, k1⟩ := p
        simp only [hr] at hf
        rcases List.mem_cons.mp hf with rfl | hf2
        · exact unitsRunF_shape _ _ _ _ hr
        · exact ih (k1 - 1) f hf2

theorem findFormulas_shape (cs f : List Char)
    (h : f ∈ Chem.findFormulas cs) : Chem.unitShape f = true :=
  findFormulasA_shape cs 0 f h

theorem parse_unit_length (u : List Char) (h : Chem.unitShape u = true) :
    (Chem.parse_formula u).length = 1 := by
  cases u with
  | nil => exact absurd h (by simp [Chem.unitShape])
  | cons c rest =>
    simp only [Chem.unitShape, Bool.and_eq_true] at h
    obtain ⟨hu, ht⟩ := h
    have hnp : (c == '(') = false := by
      cases hcp : c == '(' with
      | false => rfl
      | true =>
        have : c = '(' := by simpa using hcp
        rw [this] at hu
        exact absurd hu (by decide)
    unfold Chem.parse_formula
    simp only [List.length_cons]
    show (Chem.parse_core (rest.length + 1) (c :: rest) 1 []).length = 1
    simp only [Chem.parse_core, hnp, Bool.false_eq_true, if_false, hu, if_true]
    cases rest with
    | nil =>
      simp only [Chem.lowTail, List.takeWhile_nil, List.length_nil,
        List.drop_nil]
      rw [parse_core_nil]
      rfl
    | cons d ds =>
      simp only [Chem.unitTail, Bool.or_eq_true, Bool.and_eq_true] at ht
      rcases ht with ⟨hl, hds⟩ | hall
      · simp only [Chem.lowTail, if_pos hl]
        rw [takeWhile_digits_eq_self ds hds, List.drop_length, parse_core_nil]
        rfl
      · have hlow : d.isLower = false := by
          cases hl : d.isLower with
          | false => rfl
          | true =>
            have hd : d.isDigit = true :=
              (List.all_eq_true.mp hall) d (List.mem_cons_self _ _)
            have h1 : 48 ≤ d.toNat ∧ d.toNat ≤ 57 := by
              simpa [Char.isDigit, Char.le_def, Char.toNat] using hd
            have h2 : 97 ≤ d.toNat ∧ d.toNat ≤ 122 := by
              simpa [Char.isLower, Char.le_def, Char.toNat] using hl
            omega
        simp only [Chem.lowTail, hlow, Bool.false_eq_true, if_false]
        rw [takeWhile_digits_eq_self (d :: ds) hall, List.drop_length,
          parse_core_nil]
        rfl

/-- Claim C10 (confirmed).  `re.findall` with the repeated capture group
`([A-Z][a-z]?\d*)+` reports only the final repetition's capture, so every
extracted formula is a single element unit; `parse_formula` of such a unit
holds exactly one element, the `len(elements) >= 2` guard therefore never
passes, and the "How many atoms of X" question branch is dead for every
document and every random choice. -/
theorem c10_extracted_formulas_single_unit :
    ∀ text : List Char,
      (∀ f ∈ (Chem.extract_chemical_content text).formulas,
        Chem.unitShape f = true ∧ (Chem.parse_formula f).length = 1)
      ∧ ∀ rng : Rng,
        Chem.formulaCountQs rng (Chem.extract_chemical_content text) = [] := by
  intro text
  have hshape : ∀ f ∈ (Chem.extract_chemical_content text).formulas,
      Chem.unitShape f = true ∧ (Chem.parse_formula f).length = 1 := by
    intro f hf
    have hf2 : f ∈ firstDedup (Chem.findFormulas text) :=
      (List.mem_filter.mp hf).1
    have hf3 : f ∈ Chem.findFormulas text :=
      (firstDedupGo_mem (Chem.findFormulas text) [] f hf2).2
    have hs := findFormulas_shape text f hf3
    exact ⟨hs, parse_unit_length f hs⟩
  refine ⟨hshape, ?_⟩
  intro rng
  unfold Chem.formulaCountQs
  rw [List.filterMap_eq_nil_iff]
  intro f hf
  have hlen := (hshape f hf).2
  rw [if_neg (by omega)]

/-- Witness for claim C10 at a concrete document. -/
theorem c10_extracted_formulas_single_unit_witness :
    (str "H2" ∈ (Chem.extract_chemical_content
        (Chem.preprocess_text (str "Water H2O"))).formulas
      ∧ Chem.unitShape (str "H2") = true
      ∧ (Chem.parse_formula (str "H2")).length = 1)
    ∧ Chem.formulaCountQs rngTake (Chem.extract_chemical_content
        (Chem.preprocess_text (str "Water H2O"))) = [] :=
  ⟨⟨by decide,
    ((c10_extracted_formulas_single_unit
      (Chem.preprocess_text (str "Water H2O"))).1 (str "H2") (by decide)).1,
    ((c10_extracted_formulas_single_unit
      (Chem.preprocess_text (str "Water H2O"))).1 (str "H2") (by decide)).2⟩,
   (c10_extracted_formulas_single_unit
      (Chem.preprocess_text (str "Water H2O"))).2 rngTake⟩

/-! Formula parsing: multiplier distribution (claim C5). -/

theorem assocVal_nil (e : List Char) : assocVal e [] = 0 := rfl

theorem assocGet_map_update (k : List Char) (v : Nat) (e : List Char) :
    ∀ m : List (List Char × Nat),
    assocGet e (m.map (fun p => (p.1, if p.1 = k then p.2 + v else p.2)))
      = (assocGet e m).map (fun w => if k = e then w + v else w) := by
  intro m
  induction m with
  | nil => rfl
  | cons p rest ih =>
    obtain ⟨a, b⟩ := p
    simp only [List.map_cons]
    by_cases hk : a = k
    · subst hk
      by_cases he : a = e
      · subst he
        simp [assocGet]
      · simp [assocGet, he, ih]
    · by_cases he : a = e
      · subst he
        have hkk : ¬(k = a) := fun h => hk h.symm
        simp [assocGet, hk, hkk]
      · simp [assocGet, hk, he, ih]

theorem assocGet_append_single (k : List Char) (v : Nat) (e : List Char) :
    ∀ m : List (List Char × Nat),
    assocGet e (m ++ [(k, v)])
      = match assocGet e m with
        | some w => some w
        | none => if k = e then some v else none := by
  intro m
  induction m with
  | nil => simp [assocGet]
  | cons p rest ih =>
    by_cases he : p.1 = e
    · simp [assocGet, if_pos he]
    · simp only [List.cons_append, assocGet, if_neg he]
      exact ih

theorem assocVal_assocAdd (m : List (List Char × Nat)) (k : List Char)
    (v : Nat) (e : List Char) :
    assocVal e (assocAdd m k v)
      = assocVal e m + (if k = e then v else 0) := by
  unfold assocAdd
  by_cases hs : (assocGet k m).isSome = true
  · rw [if_pos hs]
    unfold assocVal
    rw [assocGet_map_update]
    cases hg : assocGet e m with
    | none =>
      by_cases hk : k = e
      · subst hk
        rw [hg] at hs
        exact absurd hs (by simp)
      · simp [hk]
    | some w =>
      by_cases hk : k = e
      · simp [hk]
      · simp [hk]
  · rw [if_neg hs]
    unfold assocVal
    rw [assocGet_append_single]
    cases hg : assocGet e m with
    | none =>
      by_cases hk : k = e
      · simp [hk]
      · simp [hk]
    | some w =>
      by_cases hk : k = e
      · subst hk
        rw [hg] at hs
        simp at hs
      · simp [hk]

theorem parse_core_scale : ∀ (fuel : Nat) (cs : List Char) (m : Nat)
    (acc : List (List Char × Nat)) (e : List Char),
    assocVal e (Chem.parse_core fuel cs m acc)
      = assocVal e acc + m * Chem.coreVal fuel cs e := by
  intro fuel
  induction fuel with
  | zero =>
    intro cs m acc e
    simp [Chem.parse_core, Chem.coreVal, assocVal, assocGet]
  | succ f ih =>
    intro cs m acc e
    cases cs with
    | nil => simp [Chem.parse_core, Chem.coreVal, assocVal, assocGet]
    | cons c rest =>
      have hcv : Chem.coreVal (f + 1) (c :: rest) e
          = assocVal e (Chem.parse_core (f + 1) (c :: rest) 1 []) := rfl
      by_cases hp : (c == '(') = true
      · have hrhs : assocVal e (Chem.parse_core (f + 1) (c :: rest) 1 [])
            = (if ((Chem.parenParts rest).2.takeWhile Char.isDigit).isEmpty
                then 1
                else digitsToNat ((Chem.parenParts rest).2.takeWhile Char.isDigit))
              * Chem.coreVal f (Chem.parenParts rest).1 e
            + Chem.coreVal f
              ((Chem.parenParts rest).2.drop
                ((Chem.parenParts rest).2.takeWhile Char.isDigit).length) e := by
          simp only [Chem.parse_core, hp, if_true]
          rw [ih, ih, assocVal_nil]
          ring
        simp only [Chem.parse_core, hp, if_true]
        rw [ih, ih, hcv, hrhs]
        ring
      · by_cases hup : c.isUpper = true
        · have hrhs : assocVal e (Chem.parse_core (f + 1) (c :: rest) 1 [])
              = (if ((Chem.lowTail rest).2.takeWhile Char.isDigit).isEmpty
                  then 1
                  else digitsToNat ((Chem.lowTail rest).2.takeWhile Char.isDigit))
                * (if (c :: (Chem.lowTail rest).1) = e then 1 else 0)
              + Chem.coreVal f
                ((Chem.lowTail rest).2.drop
                  ((Chem.lowTail rest).2.takeWhile Char.isDigit).length) e := by
            simp only [Chem.parse_core, hp, Bool.false_eq_true, if_false,
              hup, if_true]
            rw [ih, assocVal_assocAdd, assocVal_nil]
            by_cases he : (c :: (Chem.lowTail rest).1) = e
            · rw [if_pos he, if_pos he]
              ring
            · rw [if_neg he, if_neg he]
              ring
          simp only [Chem.parse_core, hp, Bool.false_eq_true, if_false,
            hup, if_true]
          rw [ih, assocVal_assocAdd, hcv, hrhs]
          by_cases he : (c :: (Chem.lowTail rest).1) = e
          · rw [if_pos he, if_pos he]
            ring
          · rw [if_neg he, if_neg he]
            ring
        · have hrhs : assocVal e (Chem.parse_core (f + 1) (c :: rest) 1 [])
              = Chem.coreVal f rest e := by
            simp only [Chem.parse_core, hp, Bool.false_eq_true, if_false,
              hup]
            rfl
          simp only [Chem.parse_core, hp, Bool.false_eq_true, if_false, hup]
          rw [ih, hcv, hrhs]

theorem dropLen_le (l : List Char) (n : Nat) : (l.drop n).length ≤ l.length := by
  rw [List.length_drop]
  omega

theorem parenParts_fst_le (l : List Char) :
    (Chem.parenParts l).1.length ≤ l.length := by
  unfold Chem.parenParts
  cases h : Chem.parenScan 1 l with
  | some j =>
    simp only [List.length_take]
    omega
  | none =>
    simp only [List.length_dropLast]
    omega

theorem parenParts_snd_le (l : List Char) :
    (Chem.parenParts l).2.length ≤ l.length := by
  unfold Chem.parenParts
  cases h : Chem.parenScan 1 l with
  | some j =>
    simp only [List.length_drop]
    omega
  | none => simp

theorem lowTail_snd_le (l : List Char) :
    (Chem.lowTail l).2.length ≤ l.length := by
  cases l with
  | nil => simp [Chem.lowTail]
  | cons d r2 =>
    by_cases hl : d.isLower = true
    · simp [Chem.lowTail, hl]
    · simp [Chem.lowTail, hl]

theorem parse_core_fuel2 : ∀ (f g : Nat) (cs : List Char) (m : Nat)
    (acc : List (List Char × Nat)), cs.length ≤ f → cs.length ≤ g →
    Chem.parse_core f cs m acc = Chem.parse_core g cs m acc := by
  intro f
  induction f with
  | zero =>
    intro g cs m acc h1 h2
    have hcs : cs = [] := List.eq_nil_of_length_eq_zero (Nat.le_zero.mp h1)
    subst hcs
    rw [parse_core_nil, parse_core_nil]
  | succ f ih =>
    intro g cs m acc h1 h2
    cases cs with
    | nil => rw [parse_core_nil, parse_core_nil]
    | cons c rest =>
      cases g with
      | zero => exact absurd h2 (by simp)
      | succ g2 =>
        have hr1 : rest.length ≤ f := by
          simp only [List.length_cons] at h1
          omega
        have hr2 : rest.length ≤ g2 := by
          simp only [List.length_cons] at h2
          omega
        by_cases hp : (c == '(') = true
        · simp only [Chem.parse_core, hp, if_true]
          rw [ih g2 _ _ _ (le_trans (parenParts_fst_le rest) hr1)
              (le_trans (parenParts_fst_le rest) hr2),
            ih g2 _ _ _
              (le_trans (dropLen_le _ _) (le_trans (parenParts_snd_le rest) hr1))
              (le_trans (dropLen_le _ _) (le_trans (parenParts_snd_le rest) hr2))]
        · by_cases hup : c.isUpper = true
          · simp only [Chem.parse_core, hp, Bool.false_eq_true, if_false,
              hup, if_true]
            rw [ih g2 _ _ _
              (le_trans (dropLen_le _ _) (le_trans (lowTail_snd_le rest) hr1))
              (le_trans (dropLen_le _ _) (le_trans (lowTail_snd_le rest) hr2))]
          · simp only [Chem.parse_core, hp, Bool.false_eq_true, if_false, hup]
            rw [ih g2 _ _ _ hr1 hr2]

theorem parenScan_append : ∀ (xs : List Char) (lv j : Nat),
    Chem.parenScan lv xs = some j →
    ∀ ys : List Char, Chem.parenScan lv (xs ++ ys) = some j := by
  intro xs
  induction xs with
  | nil =>
    intro lv j h ys
    exact absurd h (by simp [Chem.parenScan])
  | cons c rest ih =>
    intro lv j h ys
    simp only [Chem.parenScan] at h
    simp only [List.cons_append, Chem.parenScan]
    by_cases hz :
        (if c == '(' then lv + 1 else if c == ')' then lv - 1 else lv) = 0
    · rw [if_pos hz] at h
      rw [if_pos hz]
      exact h
    · rw [if_neg hz] at h
      rw [if_neg hz]
      cases hrec : Chem.parenScan
          (if c == '(' then lv + 1 else if c == ')' then lv - 1 else lv)
          rest with
      | none =>
        rw [hrec] at h
        exact absurd h (by simp)
      | some j2 =>
        rw [hrec] at h
        rw [List.append_eq, ih _ j2 hrec ys]
        exact h

/-- Claim C5: `parse_formula` round-trips the known compounds —
`parse_formula "H2O" = {H: 2, O: 1}` and
`parse_formula "Ca(OH)2" = {Ca: 1, O: 2, H: 2}` — and in general a
parenthesized group's trailing multiplier multiplies the count of every
element inside the parentheses (stated for any properly nested group `g`
and any non-empty digit string `ds`: parsing `(g)ds` gives each element
`digitsToNat ds` times its count in `g` alone), and every count in the
result is a non-negative integer. -/
theorem c5_parse_formula_roundtrip :
    (Chem.parse_formula (str "H2O") = [(str "H", 2), (str "O", 1)]
      ∧ Chem.parse_formula (str "Ca(OH)2")
          = [(str "Ca", 1), (str "O", 2), (str "H", 2)])
    ∧ (∀ (g ds e : List Char), Chem.balancedGroup g = true → ds ≠ [] →
        ds.all Char.isDigit = true →
        assocVal e (Chem.parse_formula ('(' :: (g ++ ')' :: ds)))
          = digitsToNat ds * assocVal e (Chem.parse_formula g))
    ∧ (∀ (f e : List Char) (n : Nat),
        assocGet e (Chem.parse_formula f) = some n → 0 ≤ (n : Int)) := by
  refine ⟨⟨by decide, by decide⟩, ?_, ?_⟩
  · intro g ds e hbal hne hdig
    have h0 : Chem.parenScan 1 (g ++ [')']) = some g.length := by
      unfold Chem.balancedGroup at hbal
      exact eq_of_beq hbal
    have hscan : Chem.parenScan 1 (g ++ ')' :: ds) = some g.length := by
      have h2 := parenScan_append (g ++ [')']) 1 g.length h0 ds
      have he : (g ++ [')']) ++ ds = g ++ ')' :: ds := by simp
      rw [he] at h2
      exact h2
    have hpp : Chem.parenParts (g ++ ')' :: ds) = (g, ds) := by
      unfold Chem.parenParts
      rw [hscan]
      have h1 : (g ++ ')' :: ds).take g.length = g := List.take_left g _
      have h2 : (g ++ ')' :: ds).drop (g.length + 1) = ds := by
        have he : g ++ ')' :: ds = (g ++ [')']) ++ ds := by simp
        rw [he]
        have hl : (g ++ [')']).length = g.length + 1 := by simp
        rw [← hl]
        exact List.drop_left _ _
      show (List.take g.length (g ++ ')' :: ds),
          List.drop (g.length + 1) (g ++ ')' :: ds)) = (g, ds)
      rw [h1, h2]
    have hem : ds.isEmpty = false := by
      cases ds with
      | nil => exact absurd rfl hne
      | cons a l => rfl
    have hc : (('(' : Char) == '(') = true := rfl
    unfold Chem.parse_formula
    rw [List.length_cons]
    simp only [Chem.parse_core, hc, if_true]
    simp only [hpp]
    rw [takeWhile_digits_eq_self ds hdig, hem]
    simp only [Bool.false_eq_true, if_false]
    rw [List.drop_length, parse_core_nil, one_mul, parse_core_scale,
      assocVal_nil, Nat.zero_add]
    have hb1 : g.length ≤ (g ++ ')' :: ds).length := by
      rw [List.length_append]
      omega
    have hcv : Chem.coreVal (g ++ ')' :: ds).length g e
        = assocVal e (Chem.parse_core (g ++ ')' :: ds).length g 1 []) := rfl
    rw [hcv, parse_core_fuel2 (g ++ ')' :: ds).length g.length g 1 [] hb1
      (le_refl _)]
  · intro f e n h
    exact Int.natCast_nonneg n

/-- Concrete instantiation of the hypotheses of `c5_parse_formula_roundtrip`:
the multiplier law at group `OH` with multiplier `2` and element `H`, and the
non-negativity part at `H2O` with `H ↦ 2`. -/
theorem c5_parse_formula_roundtrip_witness :
    (Chem.balancedGroup (str "OH") = true ∧ str "2" ≠ [] ∧
      (str "2").all Char.isDigit = true ∧
      assocVal (str "H")
          (Chem.parse_formula ('(' :: (str "OH" ++ ')' :: str "2")))
        = digitsToNat (str "2")
            * assocVal (str "H") (Chem.parse_formula (str "OH")))
    ∧ (assocGet (str "H") (Chem.parse_formula (str "H2O")) = some 2 ∧
        (0 : Int) ≤ ((2 : Nat) : Int)) :=
  ⟨⟨by decide, by decide, by decide,
    c5_parse_formula_roundtrip.2.1 (str "OH") (str "2") (str "H")
      (by decide) (by decide) (by decide)⟩,
   ⟨by decide,
    c5_parse_formula_roundtrip.2.2 (str "H2O") (str "H") 2 (by decide)⟩⟩

/-!  Support for claim C9: the preprocessed text is a single line and the
arrow-normalisation pass leaves no textual arrow token behind. -/

theorem startsW_append_left : ∀ (w xs ys : List Char),
    startsW w xs = true → startsW w (xs ++ ys) = true := by
  intro w
  induction w with
  | nil => intro xs ys _; rfl
  | cons a w ih =>
    intro xs ys h
    cases xs with
    | nil => exact absurd h (by simp [startsW])
    | cons x xs =>
      simp only [startsW, Bool.and_eq_true] at h
      simp only [List.cons_append, startsW, Bool.and_eq_true]
      exact ⟨h.1, ih xs ys h.2⟩

theorem containsSeq_append_left : ∀ (w xs ys : List Char),
    containsSeq w xs = true → containsSeq w (xs ++ ys) = true := by
  intro w xs
  induction xs with
  | nil =>
    intro ys h
    cases w with
    | nil => cases ys with
      | nil => exact h
      | cons y ys => simp [containsSeq, startsW]
    | cons a w => exact absurd h (by simp [containsSeq, startsW])
  | cons x xs ih =>
    intro ys h
    simp only [containsSeq, Bool.or_eq_true] at h
    simp only [List.cons_append, containsSeq, Bool.or_eq_true]
    cases h with
    | inl h => exact Or.inl (startsW_append_left w (x :: xs) ys h)
    | inr h => exact Or.inr (ih ys h)

theorem containsSeq_append_right : ∀ (w xs ys : List Char),
    containsSeq w ys = true → containsSeq w (xs ++ ys) = true := by
  intro w xs
  induction xs with
  | nil => intro ys h; exact h
  | cons x xs ih =>
    intro ys h
    simp only [List.cons_append, containsSeq, Bool.or_eq_true]
    exact Or.inr (ih ys h)

theorem containsChar_cons (c a : Char) (w : List Char) :
    containsChar c (a :: w) = ((a == c) || containsChar c w) := rfl

theorem startsW_prefix_space : ∀ (xs w T : List Char),
    containsChar ' ' w = false → startsW w (xs ++ ' ' :: T) = true →
    startsW w xs = true := by
  intro xs
  induction xs with
  | nil =>
    intro w T hsp h
    cases w with
    | nil => rfl
    | cons a w =>
      simp only [List.nil_append, startsW, Bool.and_eq_true] at h
      rw [containsChar_cons] at hsp
      simp only [Bool.or_eq_false_iff] at hsp
      rw [beq_iff_eq] at h
      exact absurd h.1 (by
        intro he
        rw [he] at hsp
        simp at hsp)
  | cons x xs ih =>
    intro w T hsp h
    cases w with
    | nil => rfl
    | cons a w =>
      simp only [List.cons_append, startsW, Bool.and_eq_true] at h
      rw [containsChar_cons] at hsp
      simp only [Bool.or_eq_false_iff] at hsp
      simp only [startsW, Bool.and_eq_true]
      exact ⟨h.1, ih w T hsp.2 h.2⟩

theorem contains_break : ∀ (xs w T : List Char), w ≠ [] →
    containsChar ' ' w = false → containsSeq w (xs ++ ' ' :: T) = true →
    containsSeq w xs = true ∨ containsSeq w T = true := by
  intro xs
  induction xs with
  | nil =>
    intro w T hne hsp h
    simp only [List.nil_append, containsSeq, Bool.or_eq_true] at h
    cases h with
    | inl h =>
      cases w with
      | nil => exact absurd rfl hne
      | cons a w =>
        simp only [startsW, Bool.and_eq_true] at h
        rw [containsChar_cons] at hsp
        simp only [Bool.or_eq_false_iff] at hsp
        rw [beq_iff_eq] at h
        exact absurd h.1 (by
          intro he
          rw [he] at hsp
          simp at hsp)
    | inr h => exact Or.inr h
  | cons x xs ih =>
    intro w T hne hsp h
    simp only [List.cons_append, containsSeq, Bool.or_eq_true] at h
    cases h with
    | inl h =>
      have hx : startsW w (x :: xs) = true := by
        cases w with
        | nil => rfl
        | cons a w =>
          simp only [startsW, Bool.and_eq_true] at h
          simp only [startsW, Bool.and_eq_true]
          rw [containsChar_cons] at hsp
          simp only [Bool.or_eq_false_iff] at hsp
          exact ⟨h.1, startsW_prefix_space xs w T hsp.2 h.2⟩
      exact Or.inl (by
        simp only [containsSeq, Bool.or_eq_true]
        exact Or.inl hx)
    | inr h =>
      cases ih w T hne hsp h with
      | inl h2 =>
        exact Or.inl (by
          simp only [containsSeq, Bool.or_eq_true]
          exact Or.inr h2)
      | inr h2 => exact Or.inr h2

theorem spaceA_drop : ∀ (k : Nat) (cs : List Char),
    Chem.spaceA k cs = Chem.spaceA 0 (cs.drop k) := by
  intro k
  induction k with
  | zero => intro cs; rfl
  | succ k ih =>
    intro cs
    cases cs with
    | nil => rfl
    | cons c cs =>
      show Chem.spaceA k cs = _
      rw [ih cs]
      rfl

theorem collapseA_drop : ∀ (k : Nat) (cs : List Char),
    Chem.collapseA k cs = Chem.collapseA 0 (cs.drop k) := by
  intro k
  induction k with
  | zero => intro cs; rfl
  | succ k ih =>
    intro cs
    cases cs with
    | nil => rfl
    | cons c cs =>
      show Chem.collapseA k cs = _
      rw [ih cs]
      rfl

theorem lowTail_append (cs : List Char) :
    (Chem.lowTail cs).1 ++ (Chem.lowTail cs).2 = cs := by
  cases cs with
  | nil => rfl
  | cons d r2 =>
    by_cases h : d.isLower = true
    · simp [Chem.lowTail, h]
    · simp [Chem.lowTail, h]

theorem takeWhile_app_drop (p : Char → Bool) :
    ∀ l : List Char, l.takeWhile p ++ l.drop (l.takeWhile p).length = l := by
  intro l
  induction l with
  | nil => rfl
  | cons c cs ih =>
    by_cases h : p c = true
    · simp only [List.takeWhile_cons, h, if_true, List.length_cons,
        List.cons_append, List.drop_succ_cons]
      rw [ih]
    · simp only [List.takeWhile_cons, h, Bool.false_eq_true, if_false,
        List.length_nil, List.nil_append, List.drop_zero]

theorem containsSeq_cons_of (w : List Char) (c : Char) (l : List Char)
    (h : containsSeq w l = true) : containsSeq w (c :: l) = true := by
  simp only [containsSeq, Bool.or_eq_true]
  exact Or.inr h

theorem containsSeq_drop_le (w l : List Char) (j : Nat)
    (h : containsSeq w (l.drop j) = true) : containsSeq w l = true := by
  have h2 := containsSeq_append_right w (l.take j) (l.drop j) h
  rw [List.take_append_drop] at h2
  exact h2

theorem unitAt_decomp (c : Char) (cs u : List Char)
    (h : Chem.unitAt (c :: cs) = some u) :
    ∃ r : List Char, c :: cs = u ++ r ∧ r.length ≤ cs.length ∧
      Chem.spaceA (u.length - 1) cs = Chem.spaceA 0 r := by
  rcases hlt : Chem.lowTail cs with ⟨a, b⟩
  have hab : a ++ b = cs := by
    have h2 := lowTail_append cs
    rw [hlt] at h2
    exact h2
  simp only [Chem.unitAt, hlt] at h
  by_cases hup : c.isUpper = true
  · rw [if_pos hup] at h
    have hu := Option.some.inj h
    have hb : b.length ≤ cs.length := by
      have h2 := lowTail_snd_le cs
      rw [hlt] at h2
      exact h2
    have hcs : cs = (a ++ b.takeWhile Char.isDigit)
        ++ b.drop (b.takeWhile Char.isDigit).length := by
      rw [List.append_assoc, takeWhile_app_drop, hab]
    refine ⟨b.drop (b.takeWhile Char.isDigit).length, ?_, ?_, ?_⟩
    · rw [← hu, hcs]
      simp [List.cons_append, List.append_assoc]
    · exact le_trans (dropLen_le b _) hb
    · rw [← hu]
      have hlen : ((c :: a) ++ b.takeWhile Char.isDigit).length - 1
          = (a ++ b.takeWhile Char.isDigit).length := by
        simp only [List.length_append, List.length_cons]
        omega
      have key : cs.drop (a ++ b.takeWhile Char.isDigit).length
          = b.drop (b.takeWhile Char.isDigit).length := by
        rw [hcs, List.drop_left]
      rw [hlen, spaceA_drop, key]
  · rw [if_neg hup] at h
    exact absurd h (by simp)

theorem spaceA_startsW : ∀ (cs w : List Char), containsChar ' ' w = false →
    startsW w (Chem.spaceA 0 cs) = true → startsW w cs = true := by
  intro cs
  induction cs with
  | nil =>
    intro w hsp h
    cases w with
    | nil => rfl
    | cons a w => exact absurd h (by simp [Chem.spaceA, startsW])
  | cons c cs ih =>
    intro w hsp h
    cases w with
    | nil => rfl
    | cons a w =>
      cases hu : Chem.unitAt (c :: cs) with
      | some u =>
        rw [show Chem.spaceA 0 (c :: cs)
            = ' ' :: (u ++ (' ' :: Chem.spaceA (u.length - 1) cs)) from by
          simp [Chem.spaceA, hu]] at h
        simp only [startsW, Bool.and_eq_true] at h
        rw [containsChar_cons] at hsp
        simp only [Bool.or_eq_false_iff] at hsp
        rw [beq_iff_eq] at h
        exact absurd h.1 (by
          intro he
          rw [he] at hsp
          simp at hsp)
      | none =>
        rw [show Chem.spaceA 0 (c :: cs) = c :: Chem.spaceA 0 cs from by
          simp [Chem.spaceA, hu]] at h
        simp only [startsW, Bool.and_eq_true] at h ⊢
        rw [containsChar_cons] at hsp
        simp only [Bool.or_eq_false_iff] at hsp
        exact ⟨h.1, ih w hsp.2 h.2⟩

theorem spaceA_contains : ∀ (n : Nat) (cs : List Char), cs.length ≤ n →
    ∀ w : List Char, w ≠ [] → containsChar ' ' w = false →
    containsSeq w (Chem.spaceA 0 cs) = true → containsSeq w cs = true := by
  intro n
  induction n with
  | zero =>
    intro cs hlen w hne hsp h
    have hcs : cs = [] := List.eq_nil_of_length_eq_zero (Nat.le_zero.mp hlen)
    subst hcs
    cases w with
    | nil => exact absurd rfl hne
    | cons a w => exact absurd h (by simp [Chem.spaceA, containsSeq, startsW])
  | succ n ih =>
    intro cs hlen w hne hsp h
    cases cs with
    | nil =>
      cases w with
      | nil => exact absurd rfl hne
      | cons a w => exact absurd h (by simp [Chem.spaceA, containsSeq, startsW])
    | cons c cs =>
      have hlen2 : cs.length ≤ n := by
        simp only [List.length_cons] at hlen
        omega
      cases hu : Chem.unitAt (c :: cs) with
      | some u =>
        obtain ⟨r, hr, hrlen, hsp2⟩ := unitAt_decomp c cs u hu
        rw [show Chem.spaceA 0 (c :: cs)
            = ' ' :: (u ++ (' ' :: Chem.spaceA (u.length - 1) cs)) from by
          simp [Chem.spaceA, hu]] at h
        simp only [containsSeq, Bool.or_eq_true] at h
        have h2 : containsSeq w (u ++ (' ' :: Chem.spaceA (u.length - 1) cs))
            = true := by
          cases h with
          | inl h =>
            cases w with
            | nil => exact absurd rfl hne
            | cons a w' =>
              simp only [startsW, Bool.and_eq_true] at h
              rw [containsChar_cons] at hsp
              simp only [Bool.or_eq_false_iff] at hsp
              rw [beq_iff_eq] at h
              exact absurd h.1 (by
                intro he
                rw [he] at hsp
                simp at hsp)
          | inr h => exact h
        cases contains_break u w (Chem.spaceA (u.length - 1) cs) hne hsp h2 with
        | inl hcu =>
          rw [hr]
          exact containsSeq_append_left w u r hcu
        | inr hcT =>
          rw [hsp2] at hcT
          have h3 := ih r (le_trans hrlen hlen2) w hne hsp hcT
          rw [hr]
          exact containsSeq_append_right w u r h3
      | none =>
        rw [show Chem.spaceA 0 (c :: cs) = c :: Chem.spaceA 0 cs from by
          simp [Chem.spaceA, hu]] at h
        simp only [containsSeq, Bool.or_eq_true] at h
        cases h with
        | inl h =>
          cases w with
          | nil => exact absurd rfl hne
          | cons a w' =>
            simp only [startsW, Bool.and_eq_true] at h
            rw [containsChar_cons] at hsp
            simp only [Bool.or_eq_false_iff] at hsp
            have h2 := spaceA_startsW cs w' hsp.2 h.2
            simp only [containsSeq, Bool.or_eq_true]
            exact Or.inl (by
              simp only [startsW, Bool.and_eq_true]
              exact ⟨h.1, h2⟩)
        | inr h =>
          exact containsSeq_cons_of w c cs (ih cs hlen2 w hne hsp h)

theorem collapseA_startsW : ∀ (cs w : List Char),
    containsChar ' ' w = false →
    startsW w (Chem.collapseA 0 cs) = true → startsW w cs = true := by
  intro cs
  induction cs with
  | nil =>
    intro w hsp h
    cases w with
    | nil => rfl
    | cons a w => exact absurd h (by simp [Chem.collapseA, startsW])
  | cons c cs ih =>
    intro w hsp h
    cases w with
    | nil => rfl
    | cons a w =>
      by_cases hws : pyWS c = true
      · rw [show Chem.collapseA 0 (c :: cs)
            = ' ' :: Chem.collapseA (cs.takeWhile pyWS).length cs from by
          simp [Chem.collapseA, hws]] at h
        simp only [startsW, Bool.and_eq_true] at h
        rw [containsChar_cons] at hsp
        simp only [Bool.or_eq_false_iff] at hsp
        rw [beq_iff_eq] at h
        exact absurd h.1 (by
          intro he
          rw [he] at hsp
          simp at hsp)
      · rw [show Chem.collapseA 0 (c :: cs) = c :: Chem.collapseA 0 cs from by
          simp [Chem.collapseA, hws]] at h
        simp only [startsW, Bool.and_eq_true] at h ⊢
        rw [containsChar_cons] at hsp
        simp only [Bool.or_eq_false_iff] at hsp
        exact ⟨h.1, ih w hsp.2 h.2⟩

theorem collapseA_contains : ∀ (n : Nat) (cs : List Char), cs.length ≤ n →
    ∀ w : List Char, w ≠ [] → containsChar ' ' w = false →
    containsSeq w (Chem.collapseA 0 cs) = true → containsSeq w cs = true := by
  intro n
  induction n with
  | zero =>
    intro cs hlen w hne hsp h
    have hcs : cs = [] := List.eq_nil_of_length_eq_zero (Nat.le_zero.mp hlen)
    subst hcs
    cases w with
    | nil => exact absurd rfl hne
    | cons a w =>
      exact absurd h (by simp [Chem.collapseA, containsSeq, startsW])
  | succ n ih =>
    intro cs hlen w hne hsp h
    cases cs with
    | nil =>
      cases w with
      | nil => exact absurd rfl hne
      | cons a w =>
        exact absurd h (by simp [Chem.collapseA, containsSeq, startsW])
    | cons c cs =>
      have hlen2 : cs.length ≤ n := by
        simp only [List.length_cons] at hlen
        omega
      by_cases hws : pyWS c = true
      · rw [show Chem.collapseA 0 (c :: cs)
            = ' ' :: Chem.collapseA (cs.takeWhile pyWS).length cs from by
          simp [Chem.collapseA, hws]] at h
        simp only [containsSeq, Bool.or_eq_true] at h
        have h2 : containsSeq w
            (Chem.collapseA (cs.takeWhile pyWS).length cs) = true := by
          cases h with
          | inl h =>
            cases w with
            | nil => exact absurd rfl hne
            | cons a w' =>
              simp only [startsW, Bool.and_eq_true] at h
              rw [containsChar_cons] at hsp
              simp only [Bool.or_eq_false_iff] at hsp
              rw [beq_iff_eq] at h
              exact absurd h.1 (by
                intro he
                rw [he] at hsp
                simp at hsp)
          | inr h => exact h
        rw [collapseA_drop] at h2
        have h3 := ih (cs.drop (cs.takeWhile pyWS).length)
          (le_trans (dropLen_le cs _) hlen2) w hne hsp h2
        exact containsSeq_cons_of w c cs (containsSeq_drop_le w cs _ h3)
      · rw [show Chem.collapseA 0 (c :: cs) = c :: Chem.collapseA 0 cs from by
          simp [Chem.collapseA, hws]] at h
        simp only [containsSeq, Bool.or_eq_true] at h
        cases h with
        | inl h =>
          cases w with
          | nil => exact absurd rfl hne
          | cons a w' =>
            simp only [startsW, Bool.and_eq_true] at h
            rw [containsChar_cons] at hsp
            simp only [Bool.or_eq_false_iff] at hsp
            have h2 := collapseA_startsW cs w' hsp.2 h.2
            simp only [containsSeq, Bool.or_eq_true]
            exact Or.inl (by
              simp only [startsW, Bool.and_eq_true]
              exact ⟨h.1, h2⟩)
        | inr h =>
          exact containsSeq_cons_of w c cs (ih cs hlen2 w hne hsp h)

theorem str_arrow : str "->" = ['-', '>'] := rfl

theorem str_yields : str "yields" = ['y', 'i', 'e', 'l', 'd', 's'] := rfl

theorem str_gives : str "gives" = ['g', 'i', 'v', 'e', 's'] := rfl

theorem containsSeq_cons_eq (p : List Char) (c : Char) (l : List Char) :
    containsSeq p (c :: l) = (startsW p (c :: l) || containsSeq p l) := rfl

theorem normA_dash_eq (c : Char) (cs : List Char) (h1 : (c == '-') = true) :
    (Chem.normA 0 (c :: cs)
        = '→' :: Chem.normA ((cs.takeWhile (fun x => x == '-')).length + 1) cs
      ∧ ∃ tl, cs.drop (cs.takeWhile (fun x => x == '-')).length = '>' :: tl)
    ∨ (Chem.normA 0 (c :: cs) = '-' :: Chem.normA 0 cs
      ∧ ∀ tl, cs.drop (cs.takeWhile (fun x => x == '-')).length ≠ '>' :: tl) := by
  simp only [Chem.normA]
  rw [if_pos h1]
  split
  · rename_i tl heq
    exact Or.inl ⟨rfl, tl, heq⟩
  · rename_i hno
    exact Or.inr ⟨rfl, fun tl htl => hno tl htl⟩

theorem normA0_head (c : Char) (cs : List Char) :
    ∃ h t, Chem.normA 0 (c :: cs) = h :: t ∧ (h = '→' ∨ h = c) := by
  by_cases h1 : (c == '-') = true
  · cases normA_dash_eq c cs h1 with
    | inl h => exact ⟨'→', _, h.1, Or.inl rfl⟩
    | inr h => exact ⟨'-', _, h.1, Or.inr (eq_of_beq h1).symm⟩
  · by_cases h2 : startsW (str "yields") (c :: cs) = true
    · exact ⟨'→', Chem.normA 5 cs, by simp [Chem.normA, h1, h2], Or.inl rfl⟩
    · by_cases h3 : startsW (str "gives") (c :: cs) = true
      · exact ⟨'→', Chem.normA 4 cs, by simp [Chem.normA, h1, h2, h3],
          Or.inl rfl⟩
      · exact ⟨c, Chem.normA 0 cs, by simp [Chem.normA, h1, h2, h3],
          Or.inr rfl⟩

theorem normA_startsW_safe : ∀ (cs w : List Char),
    (∀ a ∈ w, a ≠ '-' ∧ a ≠ 'y' ∧ a ≠ 'g' ∧ a ≠ '→') →
    startsW w (Chem.normA 0 cs) = true → startsW w cs = true := by
  intro cs
  induction cs with
  | nil =>
    intro w hsafe h
    cases w with
    | nil => rfl
    | cons a w => exact absurd h (by simp [Chem.normA, startsW])
  | cons c cs ih =>
    intro w hsafe h
    cases w with
    | nil => rfl
    | cons a w =>
      have hsafea := hsafe a (List.mem_cons_self a w)
      obtain ⟨hh, tt, hout, hor⟩ := normA0_head c cs
      rw [hout] at h
      simp only [startsW, Bool.and_eq_true] at h
      rw [beq_iff_eq] at h
      cases hor with
      | inl he => exact absurd (h.1.trans he) hsafea.2.2.2
      | inr he =>
        have hac : a = c := h.1.trans he
        have hc1 : (c == '-') = false :=
          beq_eq_false_iff_ne.mpr (by rw [← hac]; exact hsafea.1)
        have hy : startsW (str "yields") (c :: cs) = false := by
          cases h' : startsW (str "yields") (c :: cs) with
          | false => rfl
          | true =>
            rw [str_yields] at h'
            simp only [startsW, Bool.and_eq_true] at h'
            exact absurd (hac.trans (eq_of_beq h'.1).symm) hsafea.2.1
        have hg : startsW (str "gives") (c :: cs) = false := by
          cases h' : startsW (str "gives") (c :: cs) with
          | false => rfl
          | true =>
            rw [str_gives] at h'
            simp only [startsW, Bool.and_eq_true] at h'
            exact absurd (hac.trans (eq_of_beq h'.1).symm) hsafea.2.2.1
        have hcopy : Chem.normA 0 (c :: cs) = c :: Chem.normA 0 cs := by
          simp [Chem.normA, hc1, hy, hg]
        rw [hcopy] at hout
        injection hout with hout1 hout2
        have htail := ih w
          (fun a' ha' => hsafe a' (List.mem_cons_of_mem a ha'))
          (by rw [hout2]; exact h.2)
        simp only [startsW, Bool.and_eq_true]
        constructor
        · rw [hac]
          exact beq_self_eq_true c
        · exact htail

theorem noTok_arrow_head (T : List Char)
    (hT : containsSeq (str "->") T = false
      ∧ containsSeq (str "yields") T = false
      ∧ containsSeq (str "gives") T = false) :
    containsSeq (str "->") ('→' :: T) = false
    ∧ containsSeq (str "yields") ('→' :: T) = false
    ∧ containsSeq (str "gives") ('→' :: T) = false := by
  refine ⟨?_, ?_, ?_⟩
  · rw [str_arrow, containsSeq_cons_eq, Bool.or_eq_false_iff]
    constructor
    · simp only [startsW]
      rw [show (('-' : Char) == '→') = false from rfl, Bool.false_and]
    · rw [← str_arrow]
      exact hT.1
  · rw [str_yields, containsSeq_cons_eq, Bool.or_eq_false_iff]
    constructor
    · simp only [startsW]
      rw [show (('y' : Char) == '→') = false from rfl, Bool.false_and]
    · rw [← str_yields]
      exact hT.2.1
  · rw [str_gives, containsSeq_cons_eq, Bool.or_eq_false_iff]
    constructor
    · simp only [startsW]
      rw [show (('g' : Char) == '→') = false from rfl, Bool.false_and]
    · rw [← str_gives]
      exact hT.2.2

theorem normA_noTokens : ∀ (cs : List Char) (k : Nat),
    containsSeq (str "->") (Chem.normA k cs) = false
    ∧ containsSeq (str "yields") (Chem.normA k cs) = false
    ∧ containsSeq (str "gives") (Chem.normA k cs) = false := by
  intro cs
  induction cs with
  | nil =>
    intro k
    cases k with
    | zero => exact ⟨rfl, rfl, rfl⟩
    | succ k => exact ⟨rfl, rfl, rfl⟩
  | cons c cs ih =>
    intro k
    cases k with
    | succ k => exact ih k
    | zero =>
      by_cases h1 : (c == '-') = true
      · cases normA_dash_eq c cs h1 with
        | inl hA =>
          obtain ⟨heq, tl, htl⟩ := hA
          rw [heq]
          exact noTok_arrow_head _ (ih _)
        | inr hB =>
          obtain ⟨heq, hno⟩ := hB
          rw [heq]
          refine ⟨?_, ?_, ?_⟩
          · rw [str_arrow, containsSeq_cons_eq, Bool.or_eq_false_iff]
            constructor
            · simp only [startsW]
              rw [show (('-' : Char) == '-') = true from rfl, Bool.true_and]
              cases cs with
              | nil => rfl
              | cons c2 cs2 =>
                obtain ⟨hh, tt, hout, hor⟩ := normA0_head c2 cs2
                rw [hout]
                simp only [startsW]
                have hne2 : hh ≠ '>' := by
                  cases hor with
                  | inl he =>
                    rw [he]
                    decide
                  | inr he =>
                    rw [he]
                    intro hgt
                    subst hgt
                    have hds : ((('>' : Char) :: cs2).takeWhile
                        (fun x => x == '-')).length = 0 := by
                      rw [List.takeWhile_cons, if_neg (by decide)]
                      rfl
                    exact hno cs2 (by rw [hds, List.drop_zero])
                rw [show (('>' : Char) == hh) = false from
                  beq_eq_false_iff_ne.mpr (Ne.symm hne2), Bool.false_and]
            · rw [← str_arrow]
              exact (ih 0).1
          · rw [str_yields, containsSeq_cons_eq, Bool.or_eq_false_iff]
            constructor
            · simp only [startsW]
              rw [show (('y' : Char) == '-') = false from rfl, Bool.false_and]
            · rw [← str_yields]
              exact (ih 0).2.1
          · rw [str_gives, containsSeq_cons_eq, Bool.or_eq_false_iff]
            constructor
            · simp only [startsW]
              rw [show (('g' : Char) == '-') = false from rfl, Bool.false_and]
            · rw [← str_gives]
              exact (ih 0).2.2
      · by_cases h2 : startsW (str "yields") (c :: cs) = true
        · rw [show Chem.normA 0 (c :: cs) = '→' :: Chem.normA 5 cs from by
            simp [Chem.normA, h1, h2]]
          exact noTok_arrow_head _ (ih 5)
        · by_cases h3 : startsW (str "gives") (c :: cs) = true
          · rw [show Chem.normA 0 (c :: cs) = '→' :: Chem.normA 4 cs from by
              simp [Chem.normA, h1, h2, h3]]
            exact noTok_arrow_head _ (ih 4)
          · rw [show Chem.normA 0 (c :: cs) = c :: Chem.normA 0 cs from by
              simp [Chem.normA, h1, h2, h3]]
            refine ⟨?_, ?_, ?_⟩
            · rw [str_arrow, containsSeq_cons_eq, Bool.or_eq_false_iff]
              constructor
              · simp only [startsW]
                have hcc : (('-' : Char) == c) = false := by
                  apply beq_eq_false_iff_ne.mpr
                  intro he
                  exact h1 (by rw [← he]; rfl)
                rw [hcc, Bool.false_and]
              · rw [← str_arrow]
                exact (ih 0).1
            · rw [str_yields, containsSeq_cons_eq, Bool.or_eq_false_iff]
              constructor
              · simp only [startsW]
                cases hyc : (('y' : Char) == c) with
                | false => rw [Bool.false_and]
                | true =>
                  rw [Bool.true_and]
                  cases hS : startsW ['i', 'e', 'l', 'd', 's']
                      (Chem.normA 0 cs) with
                  | false => rfl
                  | true =>
                    have htr := normA_startsW_safe cs ['i', 'e', 'l', 'd', 's']
                      (by decide) hS
                    exact absurd
                      (show startsW (str "yields") (c :: cs) = true from by
                        rw [str_yields]
                        simp only [startsW]
                        rw [hyc, Bool.true_and]
                        exact htr) h2
              · rw [← str_yields]
                exact (ih 0).2.1
            · rw [str_gives, containsSeq_cons_eq, Bool.or_eq_false_iff]
              constructor
              · simp only [startsW]
                cases hgc : (('g' : Char) == c) with
                | false => rw [Bool.false_and]
                | true =>
                  rw [Bool.true_and]
                  cases hS : startsW ['i', 'v', 'e', 's']
                      (Chem.normA 0 cs) with
                  | false => rfl
                  | true =>
                    have htr := normA_startsW_safe cs ['i', 'v', 'e', 's']
                      (by decide) hS
                    exact absurd
                      (show startsW (str "gives") (c :: cs) = true from by
                        rw [str_gives]
                        simp only [startsW]
                        rw [hgc, Bool.true_and]
                        exact htr) h3
              · rw [← str_gives]
                exact (ih 0).2.2

theorem digit_not_l (d : Char) (h : d.isDigit = true) : (d == 'l') = false := by
  cases h2 : (d == 'l') with
  | false => rfl
  | true =>
    rw [eq_of_beq h2] at h
    exact absurd h (by decide)

theorem digit_not_O (d : Char) (h : d.isDigit = true) : (d == 'O') = false := by
  cases h2 : (d == 'O') with
  | false => rfl
  | true =>
    rw [eq_of_beq h2] at h
    exact absurd h (by decide)

theorem ocrL_cons (d : Char) (rest : List Char) (h : (d == 'l') = false) :
    Chem.ocrL (d :: rest) = d :: Chem.ocrL rest := by
  cases rest with
  | nil => rfl
  | cons e rest2 => simp [Chem.ocrL, h]

theorem ocrO_cons (d : Char) (rest : List Char) (h : (d == 'O') = false) :
    Chem.ocrO (d :: rest) = d :: Chem.ocrO rest := by
  cases rest with
  | nil => rfl
  | cons e rest2 => simp [Chem.ocrO, h]

theorem ocrL_startsW : ∀ (cs w : List Char), containsChar '1' w = false →
    startsW w (Chem.ocrL cs) = true → startsW w cs = true := by
  intro cs
  induction cs with
  | nil =>
    intro w hno h
    exact h
  | cons c cs ih =>
    intro w hno h
    cases w with
    | nil => rfl
    | cons a w' =>
      cases cs with
      | nil => exact h
      | cons d rest =>
        by_cases hc : (c == 'l' && d.isDigit) = true
        · rw [show Chem.ocrL (c :: d :: rest) = '1' :: d :: Chem.ocrL rest
              from by simp [Chem.ocrL, hc]] at h
          simp only [startsW, Bool.and_eq_true] at h
          rw [containsChar_cons] at hno
          simp only [Bool.or_eq_false_iff] at hno
          rw [beq_iff_eq] at h
          exact absurd h.1 (by
            intro he
            rw [he] at hno
            simp at hno)
        · rw [show Chem.ocrL (c :: d :: rest) = c :: Chem.ocrL (d :: rest)
              from by simp [Chem.ocrL, hc]] at h
          simp only [startsW, Bool.and_eq_true] at h ⊢
          rw [containsChar_cons] at hno
          simp only [Bool.or_eq_false_iff] at hno
          exact ⟨h.1, ih w' hno.2 h.2⟩

theorem ocrO_startsW : ∀ (cs w : List Char), containsChar '0' w = false →
    startsW w (Chem.ocrO cs) = true → startsW w cs = true := by
  intro cs
  induction cs with
  | nil =>
    intro w hno h
    exact h
  | cons c cs ih =>
    intro w hno h
    cases w with
    | nil => rfl
    | cons a w' =>
      cases cs with
      | nil => exact h
      | cons d rest =>
        by_cases hc : (c == 'O' && d.isDigit) = true
        · rw [show Chem.ocrO (c :: d :: rest) = '0' :: d :: Chem.ocrO rest
              from by simp [Chem.ocrO, hc]] at h
          simp only [startsW, Bool.and_eq_true] at h
          rw [containsChar_cons] at hno
          simp only [Bool.or_eq_false_iff] at hno
          rw [beq_iff_eq] at h
          exact absurd h.1 (by
            intro he
            rw [he] at hno
            simp at hno)
        · rw [show Chem.ocrO (c :: d :: rest) = c :: Chem.ocrO (d :: rest)
              from by simp [Chem.ocrO, hc]] at h
          simp only [startsW, Bool.and_eq_true] at h ⊢
          rw [containsChar_cons] at hno
          simp only [Bool.or_eq_false_iff] at hno
          exact ⟨h.1, ih w' hno.2 h.2⟩

theorem ocrL_contains : ∀ (cs w : List Char), w ≠ [] →
    containsChar '1' w = false →
    containsSeq w (Chem.ocrL cs) = true → containsSeq w cs = true := by
  intro cs
  induction cs with
  | nil =>
    intro w hne hno h
    exact h
  | cons c cs ih =>
    intro w hne hno h
    cases cs with
    | nil => exact h
    | cons d rest =>
      by_cases hc : (c == 'l' && d.isDigit) = true
      · rw [show Chem.ocrL (c :: d :: rest) = '1' :: d :: Chem.ocrL rest
            from by simp [Chem.ocrL, hc]] at h
        have hdig : d.isDigit = true := by
          simp only [Bool.and_eq_true] at hc
          exact hc.2
        rw [containsSeq_cons_eq, Bool.or_eq_true] at h
        have h2 : containsSeq w (d :: Chem.ocrL rest) = true := by
          cases h with
          | inl h =>
            cases w with
            | nil => exact absurd rfl hne
            | cons a w' =>
              simp only [startsW, Bool.and_eq_true] at h
              rw [containsChar_cons] at hno
              simp only [Bool.or_eq_false_iff] at hno
              rw [beq_iff_eq] at h
              exact absurd h.1 (by
                intro he
                rw [he] at hno
                simp at hno)
          | inr h => exact h
        rw [← ocrL_cons d rest (digit_not_l d hdig)] at h2
        exact containsSeq_cons_of w c (d :: rest) (ih w hne hno h2)
      · rw [show Chem.ocrL (c :: d :: rest) = c :: Chem.ocrL (d :: rest)
            from by simp [Chem.ocrL, hc]] at h
        rw [containsSeq_cons_eq, Bool.or_eq_true] at h
        cases h with
        | inl h =>
          cases w with
          | nil => exact absurd rfl hne
          | cons a w' =>
            simp only [startsW, Bool.and_eq_true] at h
            rw [containsChar_cons] at hno
            simp only [Bool.or_eq_false_iff] at hno
            have h2 := ocrL_startsW (d :: rest) w' hno.2 h.2
            rw [containsSeq_cons_eq, Bool.or_eq_true]
            exact Or.inl (by
              simp only [startsW, Bool.and_eq_true]
              exact ⟨h.1, h2⟩)
        | inr h => exact containsSeq_cons_of w c (d :: rest) (ih w hne hno h)

theorem ocrO_contains : ∀ (cs w : List Char), w ≠ [] →
    containsChar '0' w = false →
    containsSeq w (Chem.ocrO cs) = true → containsSeq w cs = true := by
  intro cs
  induction cs with
  | nil =>
    intro w hne hno h
    exact h
  | cons c cs ih =>
    intro w hne hno h
    cases cs with
    | nil => exact h
    | cons d rest =>
      by_cases hc : (c == 'O' && d.isDigit) = true
      · rw [show Chem.ocrO (c :: d :: rest) = '0' :: d :: Chem.ocrO rest
            from by simp [Chem.ocrO, hc]] at h
        have hdig : d.isDigit = true := by
          simp only [Bool.and_eq_true] at hc
          exact hc.2
        rw [containsSeq_cons_eq, Bool.or_eq_true] at h
        have h2 : containsSeq w (d :: Chem.ocrO rest) = true := by
          cases h with
          | inl h =>
            cases w with
            | nil => exact absurd rfl hne
            | cons a w' =>
              simp only [startsW, Bool.and_eq_true] at h
              rw [containsChar_cons] at hno
              simp only [Bool.or_eq_false_iff] at hno
              rw [beq_iff_eq] at h
              exact absurd h.1 (by
                intro he
                rw [he] at hno
                simp at hno)
          | inr h => exact h
        rw [← ocrO_cons d rest (digit_not_O d hdig)] at h2
        exact containsSeq_cons_of w c (d :: rest) (ih w hne hno h2)
      · rw [show Chem.ocrO (c :: d :: rest) = c :: Chem.ocrO (d :: rest)
            from by simp [Chem.ocrO, hc]] at h
        rw [containsSeq_cons_eq, Bool.or_eq_true] at h
        cases h with
        | inl h =>
          cases w with
          | nil => exact absurd rfl hne
          | cons a w' =>
            simp only [startsW, Bool.and_eq_true] at h
            rw [containsChar_cons] at hno
            simp only [Bool.or_eq_false_iff] at hno
            have h2 := ocrO_startsW (d :: rest) w' hno.2 h.2
            rw [containsSeq_cons_eq, Bool.or_eq_true]
            exact Or.inl (by
              simp only [startsW, Bool.and_eq_true]
              exact ⟨h.1, h2⟩)
        | inr h => exact containsSeq_cons_of w c (d :: rest) (ih w hne hno h)

theorem ocrL_no_char : ∀ (cs : List Char) (x : Char), x ≠ '1' →
    containsChar x cs = false → containsChar x (Chem.ocrL cs) = false := by
  intro cs
  induction cs with
  | nil =>
    intro x h1 h2
    exact h2
  | cons c cs ih =>
    intro x h1 h2
    cases cs with
    | nil => exact h2
    | cons d rest =>
      rw [containsChar_cons] at h2
      simp only [Bool.or_eq_false_iff] at h2
      by_cases hc : (c == 'l' && d.isDigit) = true
      · have hdig : d.isDigit = true := by
          simp only [Bool.and_eq_true] at hc
          exact hc.2
        rw [show Chem.ocrL (c :: d :: rest) = '1' :: d :: Chem.ocrL rest
            from by simp [Chem.ocrL, hc]]
        rw [containsChar_cons]
        simp only [Bool.or_eq_false_iff]
        constructor
        · exact beq_eq_false_iff_ne.mpr (Ne.symm h1)
        · rw [← ocrL_cons d rest (digit_not_l d hdig)]
          exact ih x h1 h2.2
      · rw [show Chem.ocrL (c :: d :: rest) = c :: Chem.ocrL (d :: rest)
            from by simp [Chem.ocrL, hc]]
        rw [containsChar_cons]
        simp only [Bool.or_eq_false_iff]
        exact ⟨h2.1, ih x h1 h2.2⟩

theorem ocrO_no_char : ∀ (cs : List Char) (x : Char), x ≠ '0' →
    containsChar x cs = false → containsChar x (Chem.ocrO cs) = false := by
  intro cs
  induction cs with
  | nil =>
    intro x h1 h2
    exact h2
  | cons c cs ih =>
    intro x h1 h2
    cases cs with
    | nil => exact h2
    | cons d rest =>
      rw [containsChar_cons] at h2
      simp only [Bool.or_eq_false_iff] at h2
      by_cases hc : (c == 'O' && d.isDigit) = true
      · have hdig : d.isDigit = true := by
          simp only [Bool.and_eq_true] at hc
          exact hc.2
        rw [show Chem.ocrO (c :: d :: rest) = '0' :: d :: Chem.ocrO rest
            from by simp [Chem.ocrO, hc]]
        rw [containsChar_cons]
        simp only [Bool.or_eq_false_iff]
        constructor
        · exact beq_eq_false_iff_ne.mpr (Ne.symm h1)
        · rw [← ocrO_cons d rest (digit_not_O d hdig)]
          exact ih x h1 h2.2
      · rw [show Chem.ocrO (c :: d :: rest) = c :: Chem.ocrO (d :: rest)
            from by simp [Chem.ocrO, hc]]
        rw [containsChar_cons]
        simp only [Bool.or_eq_false_iff]
        exact ⟨h2.1, ih x h1 h2.2⟩

theorem collapseA_no_ws_char : ∀ (cs : List Char) (k : Nat) (x : Char),
    x ≠ ' ' → pyWS x = true →
    containsChar x (Chem.collapseA k cs) = false := by
  intro cs
  induction cs with
  | nil =>
    intro k x h1 h2
    cases k with
    | zero => rfl
    | succ k => rfl
  | cons c cs ih =>
    intro k x h1 h2
    cases k with
    | succ k => exact ih k x h1 h2
    | zero =>
      by_cases hws : pyWS c = true
      · rw [show Chem.collapseA 0 (c :: cs)
            = ' ' :: Chem.collapseA (cs.takeWhile pyWS).length cs from by
          simp [Chem.collapseA, hws]]
        rw [containsChar_cons]
        simp only [Bool.or_eq_false_iff]
        exact ⟨beq_eq_false_iff_ne.mpr (Ne.symm h1), ih _ x h1 h2⟩
      · rw [show Chem.collapseA 0 (c :: cs) = c :: Chem.collapseA 0 cs from by
          simp [Chem.collapseA, hws]]
        rw [containsChar_cons]
        simp only [Bool.or_eq_false_iff]
        refine ⟨?_, ih 0 x h1 h2⟩
        apply beq_eq_false_iff_ne.mpr
        intro he
        rw [he] at hws
        exact hws h2

theorem splitOnChar_no_sep : ∀ (sep : Char) (l : List Char),
    containsChar sep l = false → splitOnChar sep l = [l] := by
  intro sep l
  induction l with
  | nil => intro h; rfl
  | cons c rest ih =>
    intro h
    rw [containsChar_cons] at h
    simp only [Bool.or_eq_false_iff] at h
    have hcond : ¬((c == sep) = true) := by
      rw [h.1]
      simp
    simp only [splitOnChar]
    rw [if_neg hcond, ih h.2]

theorem preprocess_no_token (t : List Char) :
    containsSeq (str "->") (Chem.preprocess_text t) = false
    ∧ containsSeq (str "yields") (Chem.preprocess_text t) = false
    ∧ containsSeq (str "gives") (Chem.preprocess_text t) = false := by
  have key : ∀ w : List Char, w ≠ [] → containsChar ' ' w = false →
      containsChar '1' w = false → containsChar '0' w = false →
      containsSeq w (Chem.normA 0 t) = false →
      containsSeq w (Chem.preprocess_text t) = false := by
    intro w hne hsp h1 h0 hnorm
    cases hx : containsSeq w (Chem.preprocess_text t) with
    | false => rfl
    | true =>
      rw [show Chem.preprocess_text t
          = Chem.ocrO (Chem.ocrL (Chem.collapseA 0
              (Chem.spaceA 0 (Chem.normA 0 t)))) from rfl] at hx
      have s4 := ocrO_contains _ w hne h0 hx
      have s3 := ocrL_contains _ w hne h1 s4
      have s2 := collapseA_contains
        (Chem.spaceA 0 (Chem.normA 0 t)).length _ (le_refl _) w hne hsp s3
      have s1 := spaceA_contains (Chem.normA 0 t).length _ (le_refl _)
        w hne hsp s2
      rw [hnorm] at s1
      exact absurd s1 (by decide)
  exact ⟨key (str "->") (by decide) (by decide) (by decide) (by decide)
      ((normA_noTokens t 0).1),
    key (str "yields") (by decide) (by decide) (by decide) (by decide)
      ((normA_noTokens t 0).2.1),
    key (str "gives") (by decide) (by decide) (by decide) (by decide)
      ((normA_noTokens t 0).2.2)⟩

theorem preprocess_no_newline (t : List Char) :
    containsChar '\n' (Chem.preprocess_text t) = false := by
  rw [show Chem.preprocess_text t
      = Chem.ocrO (Chem.ocrL (Chem.collapseA 0
          (Chem.spaceA 0 (Chem.normA 0 t)))) from rfl]
  apply ocrO_no_char _ _ (by decide)
  apply ocrL_no_char _ _ (by decide)
  exact collapseA_no_ws_char _ 0 '\n' (by decide) (by decide)

/-- Claim C9: for every document text, the chemistry pipeline detects at
most one equation per document — `preprocess_text` collapses every
whitespace run (including all newlines) to a single space, so the text
passed to `extract_chemical_content` is a single line (it contains no
newline character) and its equations list has length 0 or 1, with length
exactly 1 precisely when the preprocessed text contains an arrow `→` (the
arrow-normalisation pass has already rewritten every textual arrow
`->`/`yields`/`gives` to `→`, so no other pattern can fire). -/
theorem c9_preprocess_single_line_at_most_one_equation :
    ∀ t : List Char,
      containsChar '\n' (Chem.preprocess_text t) = false
      ∧ (Chem.extract_chemical_content
          (Chem.preprocess_text t)).equations.length ≤ 1
      ∧ ((Chem.extract_chemical_content
            (Chem.preprocess_text t)).equations.length = 1
          ↔ containsChar '→' (Chem.preprocess_text t) = true) := by
  intro t
  have hnl := preprocess_no_newline t
  have htok := preprocess_no_token t
  have hsplit := splitOnChar_no_sep '\n' (Chem.preprocess_text t) hnl
  have hproj : (Chem.extract_chemical_content
        (Chem.preprocess_text t)).equations
      = (splitOnChar '\n' (Chem.preprocess_text t)).filterMap
          (fun line => if Chem.eqPatternHit line
            then some (Chem.collapseWS (strip line)) else none) := rfl
  have hpat : Chem.eqPatternHit (Chem.preprocess_text t)
      = containsChar '→' (Chem.preprocess_text t) := by
    unfold Chem.eqPatternHit
    rw [htok.1, htok.2.1, htok.2.2]
    simp
  refine ⟨hnl, ?_, ?_⟩
  · rw [hproj, hsplit]
    by_cases hh : Chem.eqPatternHit (Chem.preprocess_text t) = true
    · simp [hh]
    · simp [hh]
  · by_cases hh : Chem.eqPatternHit (Chem.preprocess_text t) = true
    · have hcont : containsChar '→' (Chem.preprocess_text t) = true := by
        rw [← hpat]
        exact hh
      rw [hproj, hsplit]
      simp [hh, hcont]
    · have hcont : ¬ containsChar '→' (Chem.preprocess_text t) = true := by
        rw [← hpat]
        exact hh
      rw [hproj, hsplit]
      simp [hh, hcont]
